import Mathlib

/-!
Shallow embedding of two components of the uv package manager:

* `crates/uv-cache-info/src/cache_info.rs` — the cache-invalidation snapshot
  (`CacheInfo`, `CacheKey`, `from_directory`, `from_timestamp`, `is_empty`,
  the wire format `CacheInfoWire`);
* `crates/uv-installer/src/installed_packages.rs` — the installed-package
  index (`InstalledPackages`, `get_packages`, `get_urls`, `remove_packages`,
  `iter`, `diagnostics`, `satisfies`, `SatisfiesResult`,
  `InstalledPackagesDiagnostic`).

Filesystem reads, TOML parsing, marker evaluation, version-specifier
containment and the external `RequirementSatisfaction::check` are modelled
as explicit data (fields of a directory/environment state) or as function
parameters bundled in a `Semantics` structure, since they live outside the
two source files.  Machine-level details (hashing, `FxHashMap` iteration
order) are modelled by association lists.
-/

namespace UvSpec

/-! ## Cache info: `crates/uv-cache-info/src/cache_info.rs` -/

/-- `Timestamp` (from `uv-cache-info/src/timestamp.rs`, external to the
embedded file): an opaque totally ordered value; modelled as `Nat`. -/
abbrev Timestamp := Nat

/-- `CacheCommit` (external): an opaque commit identifier; modelled as `String`. -/
abbrev CacheCommit := String

/-- `CacheInfo`: optional maximum timestamp plus optional commit. -/
structure CacheInfo where
  timestamp : Option Timestamp
  commit : Option CacheCommit
  deriving DecidableEq, Repr

/-- `CacheInfo::default()`: both fields absent. -/
def CacheInfo.default : CacheInfo := { timestamp := none, commit := none }

/-- `CacheInfo::from_timestamp`. -/
def CacheInfo.from_timestamp (timestamp : Timestamp) : CacheInfo :=
  { CacheInfo.default with timestamp := some timestamp }

/-- `CacheInfo::is_empty`. -/
def CacheInfo.is_empty (self : CacheInfo) : Bool :=
  self.timestamp.isNone && self.commit.isNone

/-- The `CacheKey` enum: bare path, `{ file = ... }`, or `{ git = ... }`. -/
inductive CacheKey where
  | path (p : String)
  | file (file : String)
  | git (git : Bool)
  deriving DecidableEq, Repr

/-- `ToolUv`: the `[tool.uv]` table with its optional `cache-keys` array. -/
structure ToolUv where
  cache_keys : Option (List CacheKey)
  deriving DecidableEq, Repr

/-- `Tool`: the `[tool]` table. -/
structure Tool where
  uv : Option ToolUv
  deriving DecidableEq, Repr

/-- `PyProjectToml`: a manifest with an optional `[tool]` table. -/
structure PyProjectToml where
  tool : Option Tool
  deriving DecidableEq, Repr

/-- The result of `file.metadata()` for one file: whether the path is a
regular file, and its change-time-derived timestamp. -/
structure FileMeta where
  isFile : Bool
  ctime : Timestamp
  deriving DecidableEq, Repr

/-- The filesystem state that `CacheInfo::from_directory` consults, made
explicit: the outcome of `fs_err::read_to_string(dir/pyproject.toml)`, the
outcome of `toml::from_str` on those contents (`none` models a parse error,
including a `cache-keys` entry of unknown shape, which the strict serde
schema rejects for the whole manifest), per-file `metadata()` outcomes, and
the outcome of `CacheCommit::from_repository`. -/
structure DirFS where
  directory : String
  readPyproject : Option String
  parsePyproject : Option PyProjectToml
  fileMeta : String → Option FileMeta
  gitCommit : Option CacheCommit

/-- `Path::join` for our string paths. -/
def joinPath (dir file : String) : String := dir ++ "/" ++ file

/-- `max` on `Option Timestamp` with Rust's `Ord` on `Option`
(`None` is smaller than any `Some`). -/
def optMax : Option Timestamp → Option Timestamp → Option Timestamp
  | none, b => b
  | some a, none => some a
  | some a, some b => some (max a b)

/-- The manifest-reading stage of `from_directory`: `read_to_string`, then
`toml::from_str`, then `.tool.and_then(|t| t.uv).and_then(|u| u.cache_keys)`;
any failure along the chain yields `none`. -/
def extractCacheKeys (dir : DirFS) : Option (List CacheKey) :=
  match dir.readPyproject with
  | some _ =>
    match dir.parsePyproject with
    | some pyproject_toml => (pyproject_toml.tool.bind Tool.uv).bind ToolUv.cache_keys
    | none => none
  | none => none

/-- The default cache keys: `pyproject.toml`, `setup.py`, `setup.cfg` in the
directory. -/
def defaultCacheKeys (dir : DirFS) : List CacheKey :=
  [ CacheKey.path (joinPath dir.directory "pyproject.toml"),
    CacheKey.path (joinPath dir.directory "setup.py"),
    CacheKey.path (joinPath dir.directory "setup.cfg") ]

/-- The key-processing loop of `from_directory`: a `Path`/`File` key folds the
file's timestamp into the running maximum only when `metadata()` succeeded and
the path is a regular file; `Git { git: true }` overwrites the commit when
`from_repository` succeeded and is otherwise ignored; `Git { git: false }` is
a no-op. -/
def applyCacheKeys (dir : DirFS) (keys : List CacheKey) : CacheInfo :=
  let step := fun (acc : Option Timestamp × Option CacheCommit) (cache_key : CacheKey) =>
    match cache_key with
    | CacheKey.path file =>
      (optMax acc.1 (((dir.fileMeta file).filter FileMeta.isFile).map FileMeta.ctime), acc.2)
    | CacheKey.file file =>
      (optMax acc.1 (((dir.fileMeta file).filter FileMeta.isFile).map FileMeta.ctime), acc.2)
    | CacheKey.git true =>
      match dir.gitCommit with
      | some commit_info => (acc.1, some commit_info)
      | none => acc
    | CacheKey.git false => acc
  let tc := keys.foldl step (none, none)
  { timestamp := tc.1, commit := tc.2 }

/-- `CacheInfo::from_directory`: read the manifest's cache keys, fall back to
the defaults when none were found, process the keys.  Its only `Ok`-wrapped
exit mirrors the Rust body, which never returns `Err`. -/
def CacheInfo.from_directory (dir : DirFS) : Except Unit CacheInfo :=
  let cache_keys := (extractCacheKeys dir).getD (defaultCacheKeys dir)
  Except.ok (applyCacheKeys dir cache_keys)

/-- The `CacheInfoWire` untagged wire shape: a bare timestamp scalar, or a
struct with optional `timestamp` and `commit` fields. -/
inductive CacheInfoWire where
  | timestamp (t : Timestamp)
  | timestampCommit (timestamp : Option Timestamp) (commit : Option CacheCommit)
  deriving DecidableEq, Repr

/-- `From<CacheInfoWire> for CacheInfo`. -/
def CacheInfo.fromWire : CacheInfoWire → CacheInfo
  | CacheInfoWire.timestamp t => { CacheInfo.default with timestamp := some t }
  | CacheInfoWire.timestampCommit timestamp commit => { timestamp, commit }

/-- The derived `Serialize` for `CacheInfo` emits the two-field struct shape,
which the untagged deserializer reads back as `TimestampCommit`. -/
def CacheInfo.toWire (self : CacheInfo) : CacheInfoWire :=
  CacheInfoWire.timestampCommit self.timestamp self.commit

/-! ## Installed packages: `crates/uv-installer/src/installed_packages.rs` -/

/-- `PackageName` (from `uv-normalize`, external): modelled as `String`. -/
abbrev PackageName := String

/-- `Version` (from `uv-pep440`, external): modelled as `Nat`. -/
abbrev Version := Nat

/-- `VersionSpecifiers` (external): an opaque specifier expression; its
`contains` relation is supplied by `Semantics.vsContains`. -/
abbrev VersionSpec := String

/-- A pep508 marker expression (external): opaque; its evaluation against
the fixed marker environment is supplied by `MarkerEnv.evalMarker`. -/
abbrev MarkerExpr := String

/-- `version_or_url` of a `uv_pep508::Requirement`: absent, a version
specifier, or a URL. -/
inductive VersionOrUrl where
  | versionSpecifier (vs : VersionSpec)
  | url (u : String)
  deriving DecidableEq, Repr

/-- A `uv_pep508::Requirement<VerbatimParsedUrl>` as it appears in
`metadata.requires_dist`. -/
structure Dep where
  name : PackageName
  extras : List String
  marker : MarkerExpr
  version_or_url : Option VersionOrUrl
  deriving DecidableEq, Repr

/-- The part of `uv_pypi_types::ResolutionMetadata` consumed here:
`requires_python` and `requires_dist`. -/
structure Metadata where
  requires_python : Option VersionSpec
  requires_dist : List Dep
  deriving DecidableEq, Repr

/-- An `InstalledDist` (external, consumed not owned): name, version, path,
the source URL when it is a URL/editable install, and the outcome of its
lazily-read `metadata()` (`none` models an unreadable `METADATA`). -/
structure InstalledDist where
  name : PackageName
  version : Version
  path : String
  url : Option String
  metadata : Option Metadata
  deriving DecidableEq, Repr

/-- The `Display` rendering of an `InstalledDist`, used in the
`with_context` message of `satisfies`; modelled as its name. -/
def InstalledDist.display (self : InstalledDist) : String := self.name

/-- `uv_pypi_types::Requirement` (external): name, extras, marker, and an
opaque identifier for its `RequirementSource`. -/
structure Requirement where
  name : PackageName
  extras : List String
  marker : MarkerExpr
  source : String
  deriving DecidableEq, Repr

/-- A pep508 unnamed requirement: identified by its verbatim URL, with
extras and a marker. -/
structure UnnamedRequirement where
  url : String
  extras : List String
  marker : MarkerExpr
  deriving DecidableEq, Repr

/-- `UnresolvedRequirement`: named or unnamed. -/
inductive UnresolvedRequirement where
  | named (r : Requirement)
  | unnamed (r : UnnamedRequirement)
  deriving DecidableEq, Repr

/-- `UnresolvedRequirement::source()`: the named requirement's source, or the
source derived from the unnamed requirement's URL. -/
def UnresolvedRequirement.source : UnresolvedRequirement → String
  | UnresolvedRequirement.named r => r.source
  | UnresolvedRequirement.unnamed r => r.url

/-- `UnresolvedRequirement::extras()`. -/
def UnresolvedRequirement.extras : UnresolvedRequirement → List String
  | UnresolvedRequirement.named r => r.extras
  | UnresolvedRequirement.unnamed r => r.extras

/-- The marker expression of an `UnresolvedRequirement`. -/
def UnresolvedRequirement.marker : UnresolvedRequirement → MarkerExpr
  | UnresolvedRequirement.named r => r.marker
  | UnresolvedRequirement.unnamed r => r.marker

/-- The `Display`/`to_string()` rendering of an `UnresolvedRequirement`,
used as the payload of `SatisfiesResult::Unsatisfied`. -/
def UnresolvedRequirement.describe : UnresolvedRequirement → String
  | UnresolvedRequirement.named r => r.name ++ " " ++ r.source
  | UnresolvedRequirement.unnamed r => r.url

/-- `UnresolvedRequirementSpecification`: a requirement plus its hashes;
deduplication in `satisfies` is by equality of this whole value. -/
structure UnresolvedRequirementSpecification where
  requirement : UnresolvedRequirement
  hashes : List String
  deriving DecidableEq, Repr

/-- `NameRequirementSpecification`: a named constraint requirement. -/
structure NameRequirementSpecification where
  requirement : Requirement
  deriving DecidableEq, Repr

/-- `RequirementSatisfaction` (from `uv-installer/src/satisfies.rs`,
external to the embedded file). -/
inductive RequirementSatisfaction where
  | mismatch
  | outOfDate
  | satisfied
  deriving DecidableEq, Repr

/-- The fixed marker environment of one call: the interpreter's
`python_full_version` and the evaluation of a marker expression against the
environment under a set of active extras
(`evaluate_markers(markers, extras)`). -/
structure MarkerEnv where
  pythonFullVersion : Version
  evalMarker : MarkerExpr → List String → Bool

/-- The external semantic functions consumed by the embedded file:
`VersionSpecifiers::contains` and `RequirementSatisfaction::check` (which
may fail, hence `Except`). -/
structure Semantics where
  vsContains : VersionSpec → Version → Bool
  checkSat : InstalledDist → String → Except String RequirementSatisfaction

/-- `uv_pypi_types::Requirement::from(uv_pep508::Requirement)` (external
conversion): keeps name, extras and marker, and derives the source from
`version_or_url`; the derivation is opaque, so it is encoded injectively. -/
def Requirement.fromDep (d : Dep) : Requirement :=
  { name := d.name
    extras := d.extras
    marker := d.marker
    source :=
      match d.version_or_url with
      | none => ""
      | some (VersionOrUrl.versionSpecifier vs) => "specifier " ++ vs
      | some (VersionOrUrl.url u) => "url " ++ u }

/-- `InstalledPackages`: slot array of optional distributions plus the
name and URL indices (association lists standing in for `FxHashMap`). -/
structure InstalledPackages where
  interpreterVersion : Version
  distributions : List (Option InstalledDist)
  by_name : List (PackageName × List Nat)
  by_url : List (String × List Nat)

/-- Lookup in an association list (`FxHashMap::get`). -/
def alistGet {α β : Type} [DecidableEq α] (m : List (α × β)) (k : α) : Option β :=
  (m.find? (fun e => e.1 = k)).map Prod.snd

/-- The live distribution in slot `i`: out-of-range and tombstoned slots
yield `none`. -/
def InstalledPackages.distAt (self : InstalledPackages) (i : Nat) : Option InstalledDist :=
  (self.distributions.getD i none)

/-- `InstalledPackages::get_packages`: the live distributions indexed under
`name` (a missing key and tombstoned slots yield nothing). -/
def InstalledPackages.get_packages (self : InstalledPackages) (name : PackageName) :
    List InstalledDist :=
  match alistGet self.by_name name with
  | none => []
  | some indexes => indexes.flatMap (fun index => (self.distAt index).toList)

/-- `InstalledPackages::get_urls`: the live distributions indexed under the
given verbatim URL. -/
def InstalledPackages.get_urls (self : InstalledPackages) (url : String) :
    List InstalledDist :=
  match alistGet self.by_url url with
  | none => []
  | some indexes => indexes.flatMap (fun index => (self.distAt index).toList)

/-- `InstalledPackages::iter`: the live distributions in slot order. -/
def InstalledPackages.iterList (self : InstalledPackages) : List InstalledDist :=
  self.distributions.flatMap Option.toList

/-- `InstalledPackages::any`. -/
def InstalledPackages.any (self : InstalledPackages) : Bool :=
  self.distributions.any Option.isSome

/-- `InstalledPackages::remove_packages`: `mem::take` each slot indexed
under `name` in order, collecting the distributions that were live; the
index structures are left untouched. -/
def InstalledPackages.remove_packages (self : InstalledPackages) (name : PackageName) :
    List InstalledDist × InstalledPackages :=
  match alistGet self.by_name name with
  | none => ([], self)
  | some indexes =>
    let rd := indexes.foldl
      (fun (acc : List InstalledDist × List (Option InstalledDist)) index =>
        match acc.2.getD index none with
        | some d => (acc.1 ++ [d], acc.2.set index none)
        | none => (acc.1, acc.2))
      ([], self.distributions)
    (rd.1, { self with distributions := rd.2 })

/-- `InstalledPackagesDiagnostic`. -/
inductive InstalledPackagesDiagnostic where
  | metadataUnavailable (package : PackageName) (path : String)
  | incompatiblePythonVersion (package : PackageName) (version : Version)
      (requires_python : VersionSpec)
  | missingDependency (package : PackageName) (requirement : Dep)
  | incompatibleDependency (package : PackageName) (version : Version) (requirement : Dep)
  | duplicatePackage (package : PackageName) (paths : List String)
  deriving DecidableEq, Repr

/-- The `package` field common to every diagnostic variant. -/
def InstalledPackagesDiagnostic.package : InstalledPackagesDiagnostic → PackageName
  | InstalledPackagesDiagnostic.metadataUnavailable package _ => package
  | InstalledPackagesDiagnostic.incompatiblePythonVersion package _ _ => package
  | InstalledPackagesDiagnostic.missingDependency package _ => package
  | InstalledPackagesDiagnostic.incompatibleDependency package _ _ => package
  | InstalledPackagesDiagnostic.duplicatePackage package _ => package

/-- The live distributions reached through a list of slot indices
(`indexes.iter().flat_map(|index| &self.distributions[*index])`). -/
def InstalledPackages.livesAt (self : InstalledPackages) (indexes : List Nat) :
    List InstalledDist :=
  indexes.flatMap (fun index => (self.distAt index).toList)

/-- The per-distribution audit body of `diagnostics`: unreadable metadata,
the `requires_python` check against `markers.python_full_version()`, then
each declared dependency (markers evaluated with no active extras) looked up
in the index — zero matches is a missing dependency, one match is version
checked unless the dependency is URL-sourced or unconstrained, several
matches are ignored. -/
def InstalledPackages.auditDistribution (self : InstalledPackages) (sem : Semantics)
    (env : MarkerEnv) (package : PackageName) (distribution : InstalledDist) :
    List InstalledPackagesDiagnostic :=
  match distribution.metadata with
  | none => [InstalledPackagesDiagnostic.metadataUnavailable package distribution.path]
  | some metadata =>
    (match metadata.requires_python with
     | some requires_python =>
       if sem.vsContains requires_python env.pythonFullVersion then []
       else
         [InstalledPackagesDiagnostic.incompatiblePythonVersion package
           self.interpreterVersion requires_python]
     | none => []) ++
    metadata.requires_dist.flatMap (fun dependency =>
      if env.evalMarker dependency.marker [] then
        match self.get_packages dependency.name with
        | [] => [InstalledPackagesDiagnostic.missingDependency package dependency]
        | [installed] =>
          match dependency.version_or_url with
          | none => []
          | some (VersionOrUrl.url _) => []
          | some (VersionOrUrl.versionSpecifier version_specifier) =>
            if sem.vsContains version_specifier installed.version then []
            else
              [InstalledPackagesDiagnostic.incompatibleDependency package
                installed.version dependency]
        | _ => []
      else [])

/-- The loop body of `diagnostics` for one `by_name` entry: no live install
contributes nothing; several live installs contribute one
`DuplicatePackage` listing every live path and stop the audit of that name;
a single live install is audited through the per-slot loop. -/
def InstalledPackages.diagForEntry (self : InstalledPackages) (sem : Semantics)
    (env : MarkerEnv) (entry : PackageName × List Nat) :
    List InstalledPackagesDiagnostic :=
  match self.livesAt entry.2 with
  | [] => []
  | [_] =>
    entry.2.flatMap (fun index =>
      match self.distAt index with
      | none => []
      | some distribution => self.auditDistribution sem env entry.1 distribution)
  | distribution :: conflict :: rest =>
    [InstalledPackagesDiagnostic.duplicatePackage entry.1
      (distribution.path :: conflict.path :: rest.map InstalledDist.path)]

/-- `InstalledPackages::diagnostics`: the per-entry audits accumulated over
every `by_name` entry.  (The Rust return type is `Result`, but the body has
no error exit, so the embedding returns the list directly.) -/
def InstalledPackages.diagnostics (self : InstalledPackages) (sem : Semantics)
    (env : MarkerEnv) : List InstalledPackagesDiagnostic :=
  self.by_name.flatMap (self.diagForEntry sem env)

/-- `SatisfiesResult`. -/
inductive SatisfiesResult where
  | fresh (recursive_requirements : List UnresolvedRequirementSpecification)
  | unsatisfied (description : String)
  deriving DecidableEq, Repr

/-- `entry().or_default().push(v)` on an association list keyed by `k`. -/
def alistPush {α β : Type} [DecidableEq α] (m : List (α × List β)) (k : α) (v : β) :
    List (α × List β) :=
  match m with
  | [] => [(k, [v])]
  | e :: rest => if e.1 = k then (e.1, e.2 ++ [v]) :: rest else e :: alistPush rest k v

/-- The constraint-collection fold at the top of `satisfies`:
name → every constraint requirement registered under that name. -/
def collectConstraints (constraints : List NameRequirementSpecification) :
    List (PackageName × List Requirement) :=
  constraints.foldl (fun m c => alistPush m c.requirement.name c.requirement) []

/-- The constraint-validation loop of `satisfies`: check the installed
distribution against each constraint's source; an error propagates, the
first `Mismatch`/`OutOfDate` reports failure (`ok false`), and `ok true`
means every constraint accepted. -/
def checkConstraints (sem : Semantics) (distribution : InstalledDist) :
    List Requirement → Except String Bool
  | [] => Except.ok true
  | constraint :: rest =>
    match sem.checkSat distribution constraint.source with
    | Except.error e => Except.error e
    | Except.ok RequirementSatisfaction.mismatch => Except.ok false
    | Except.ok RequirementSatisfaction.outOfDate => Except.ok false
    | Except.ok RequirementSatisfaction.satisfied => checkConstraints sem distribution rest

/-- The candidate resolution of one popped entry: by package name for named
requirements, by verbatim source URL for unnamed ones. -/
def InstalledPackages.resolveEntry (self : InstalledPackages)
    (entry : UnresolvedRequirementSpecification) : List InstalledDist :=
  match entry.requirement with
  | UnresolvedRequirement.named requirement => self.get_packages requirement.name
  | UnresolvedRequirement.unnamed requirement => self.get_urls requirement.url

/-- `evaluate_markers` of an `UnresolvedRequirement` against the fixed
environment with the given active extras. -/
def UnresolvedRequirement.evaluateMarkers (self : UnresolvedRequirement) (env : MarkerEnv)
    (extras : List String) : Bool :=
  env.evalMarker self.marker extras

/-- The `UnresolvedRequirementSpecification` that `satisfies` synthesizes
from a declared dependency: `Requirement::from(dependency)` wrapped as a
named requirement, with no hashes. -/
def mkDepSpec (dependency : Dep) : UnresolvedRequirementSpecification :=
  { requirement := UnresolvedRequirement.named (Requirement.fromDep dependency)
    hashes := [] }

/-- The dependency-pushing fold of `satisfies`: each declared dependency
whose marker holds under the popped entry's extras is converted to a named
specification with no hashes and pushed onto the stack if its insertion
into the seen set is new.  Returns (stack, seen); the stack's head is the
most recently pushed element, matching `Vec` push/pop. -/
def pushDeps (env : MarkerEnv) (extras : List String) (deps : List Dep)
    (stack seen : List UnresolvedRequirementSpecification) :
    List UnresolvedRequirementSpecification × List UnresolvedRequirementSpecification :=
  deps.foldl
    (fun acc dependency =>
      if env.evalMarker dependency.marker extras then
        let dep := mkDepSpec dependency
        if dep ∈ acc.2 then acc else (dep :: acc.1, acc.2 ++ [dep])
      else acc)
    (stack, seen)

/-- The worklist loop of `satisfies`, with explicit fuel: pop an entry,
resolve its candidates, fail on zero or several, check the single candidate
against its own source demand and every constraint registered under its
name, propagate unreadable metadata as an error, push the fresh
dependencies, and return `Fresh` with the seen set when the stack drains.
`none` means the fuel ran out before the loop finished. -/
def satisfiesLoop (sem : Semantics) (env : MarkerEnv) (self : InstalledPackages)
    (cmap : List (PackageName × List Requirement)) :
    Nat → List UnresolvedRequirementSpecification →
    List UnresolvedRequirementSpecification → Option (Except String SatisfiesResult)
  | 0, _, _ => none
  | _ + 1, [], seen => some (Except.ok (SatisfiesResult.fresh seen))
  | fuel + 1, entry :: stack, seen =>
    match self.resolveEntry entry with
    | [] => some (Except.ok (SatisfiesResult.unsatisfied entry.requirement.describe))
    | [distribution] =>
      (match sem.checkSat distribution entry.requirement.source with
       | Except.error e => some (Except.error e)
       | Except.ok RequirementSatisfaction.mismatch =>
         some (Except.ok (SatisfiesResult.unsatisfied entry.requirement.describe))
       | Except.ok RequirementSatisfaction.outOfDate =>
         some (Except.ok (SatisfiesResult.unsatisfied entry.requirement.describe))
       | Except.ok RequirementSatisfaction.satisfied =>
         match checkConstraints sem distribution ((alistGet cmap distribution.name).getD []) with
         | Except.error e => some (Except.error e)
         | Except.ok false =>
           some (Except.ok (SatisfiesResult.unsatisfied entry.requirement.describe))
         | Except.ok true =>
           match distribution.metadata with
           | none => some (Except.error ("Failed to read metadata for: " ++ distribution.display))
           | some metadata =>
             let ss := pushDeps env entry.requirement.extras metadata.requires_dist stack seen
             satisfiesLoop sem env self cmap fuel ss.1 ss.2)
    | _ :: _ :: _ => some (Except.ok (SatisfiesResult.unsatisfied entry.requirement.describe))

/-- The seeding fold of `satisfies`: each root whose marker holds with no
active extras is inserted into the seen set and, when new, pushed. -/
def seedRoots (env : MarkerEnv) (requirements : List UnresolvedRequirementSpecification) :
    List UnresolvedRequirementSpecification × List UnresolvedRequirementSpecification :=
  requirements.foldl
    (fun acc entry =>
      if entry.requirement.evaluateMarkers env [] then
        if entry ∈ acc.2 then acc else (entry :: acc.1, acc.2 ++ [entry])
      else acc)
    ([], [])

/-- `InstalledPackages::satisfies`: collect the constraints, seed the
worklist with the marker-true roots, run the loop. -/
def InstalledPackages.satisfies (self : InstalledPackages) (sem : Semantics) (env : MarkerEnv)
    (requirements : List UnresolvedRequirementSpecification)
    (constraints : List NameRequirementSpecification) (fuel : Nat) :
    Option (Except String SatisfiesResult) :=
  let cmap := collectConstraints constraints
  let ss := seedRoots env requirements
  satisfiesLoop sem env self cmap fuel ss.1 ss.2

/-- Instrumented copy of `satisfiesLoop` that additionally records, in
order, every entry popped from the worklist (the entries whose satisfaction
is actually checked).  It differs from `satisfiesLoop` only in this ghost
trace. -/
def satisfiesLoopT (sem : Semantics) (env : MarkerEnv) (self : InstalledPackages)
    (cmap : List (PackageName × List Requirement)) :
    Nat → List UnresolvedRequirementSpecification →
    List UnresolvedRequirementSpecification →
    List UnresolvedRequirementSpecification →
    Option ((Except String SatisfiesResult) × List UnresolvedRequirementSpecification)
  | 0, _, _, _ => none
  | _ + 1, [], seen, trace => some (Except.ok (SatisfiesResult.fresh seen), trace)
  | fuel + 1, entry :: stack, seen, trace =>
    match self.resolveEntry entry with
    | [] =>
      some (Except.ok (SatisfiesResult.unsatisfied entry.requirement.describe),
        trace ++ [entry])
    | [distribution] =>
      (match sem.checkSat distribution entry.requirement.source with
       | Except.error e => some (Except.error e, trace ++ [entry])
       | Except.ok RequirementSatisfaction.mismatch =>
         some (Except.ok (SatisfiesResult.unsatisfied entry.requirement.describe),
           trace ++ [entry])
       | Except.ok RequirementSatisfaction.outOfDate =>
         some (Except.ok (SatisfiesResult.unsatisfied entry.requirement.describe),
           trace ++ [entry])
       | Except.ok RequirementSatisfaction.satisfied =>
         match checkConstraints sem distribution ((alistGet cmap distribution.name).getD []) with
         | Except.error e => some (Except.error e, trace ++ [entry])
         | Except.ok false =>
           some (Except.ok (SatisfiesResult.unsatisfied entry.requirement.describe),
             trace ++ [entry])
         | Except.ok true =>
           match distribution.metadata with
           | none =>
             some (Except.error ("Failed to read metadata for: " ++ distribution.display),
               trace ++ [entry])
           | some metadata =>
             let ss := pushDeps env entry.requirement.extras metadata.requires_dist stack seen
             satisfiesLoopT sem env self cmap fuel ss.1 ss.2 (trace ++ [entry]))
    | _ :: _ :: _ =>
      some (Except.ok (SatisfiesResult.unsatisfied entry.requirement.describe),
        trace ++ [entry])

/-- Instrumented `satisfies`: same computation, plus the trace of checked
entries. -/
def InstalledPackages.satisfiesT (self : InstalledPackages) (sem : Semantics) (env : MarkerEnv)
    (requirements : List UnresolvedRequirementSpecification)
    (constraints : List NameRequirementSpecification) (fuel : Nat) :
    Option ((Except String SatisfiesResult) × List UnresolvedRequirementSpecification) :=
  let cmap := collectConstraints constraints
  let ss := seedRoots env requirements
  satisfiesLoopT sem env self cmap fuel ss.1 ss.2 []

/-- The requirements that one run of `satisfies` discovers: a root whose
marker holds with no active extras, or — stepping from a discovered entry
whose single resolved candidate passes its own source check and every
registered constraint and has readable metadata — a declared dependency
whose marker holds under the entry's extras. -/
inductive Discovered (sem : Semantics) (env : MarkerEnv) (self : InstalledPackages)
    (cmap : List (PackageName × List Requirement))
    (requirements : List UnresolvedRequirementSpecification) :
    UnresolvedRequirementSpecification → Prop where
  | root (entry : UnresolvedRequirementSpecification)
      (hmem : entry ∈ requirements)
      (hmark : entry.requirement.evaluateMarkers env [] = true) :
      Discovered sem env self cmap requirements entry
  | step (entry : UnresolvedRequirementSpecification) (distribution : InstalledDist)
      (metadata : Metadata) (dependency : Dep)
      (hprev : Discovered sem env self cmap requirements entry)
      (hres : self.resolveEntry entry = [distribution])
      (hown : sem.checkSat distribution entry.requirement.source =
        Except.ok RequirementSatisfaction.satisfied)
      (hcon : checkConstraints sem distribution
        ((alistGet cmap distribution.name).getD []) = Except.ok true)
      (hmeta : distribution.metadata = some metadata)
      (hdep : dependency ∈ metadata.requires_dist)
      (hmark : env.evalMarker dependency.marker entry.requirement.extras = true) :
      Discovered sem env self cmap requirements (mkDepSpec dependency)

/-- One-step closure of a set of specifications at `x`: whenever `x`'s
single resolved candidate passes all checks and has readable metadata, the
specification synthesized from each marker-true declared dependency is in
the set. -/
def OneStepClosed (sem : Semantics) (env : MarkerEnv) (self : InstalledPackages)
    (cmap : List (PackageName × List Requirement))
    (S : List UnresolvedRequirementSpecification)
    (x : UnresolvedRequirementSpecification) : Prop :=
  ∀ (distribution : InstalledDist) (metadata : Metadata),
    self.resolveEntry x = [distribution] →
    sem.checkSat distribution x.requirement.source =
      Except.ok RequirementSatisfaction.satisfied →
    checkConstraints sem distribution ((alistGet cmap distribution.name).getD []) =
      Except.ok true →
    distribution.metadata = some metadata →
    ∀ dependency ∈ metadata.requires_dist,
      env.evalMarker dependency.marker x.requirement.extras = true →
      mkDepSpec dependency ∈ S

/-- Well-formedness of an `InstalledPackages` index, as established by
`from_interpreter`: names key distinct entries, each entry's slot list has
no duplicates, every slot reached through an entry holds a distribution of
that entry's name, and every live slot is reachable through the entry of
its distribution's name. -/
structure IndexWF (self : InstalledPackages) : Prop where
  keysNodup : (self.by_name.map Prod.fst).Nodup
  idxsNodup : ∀ e ∈ self.by_name, e.2.Nodup
  naming : ∀ e ∈ self.by_name, ∀ i ∈ e.2, ∀ d, self.distAt i = some d → d.name = e.1
  covered : ∀ (i : Nat) (d : InstalledDist), self.distAt i = some d →
    ∃ e ∈ self.by_name, e.1 = d.name ∧ i ∈ e.2

/-! ## Concrete instances used by witnesses -/

/-- A directory with no readable manifest, none of the three default files,
and no repository. -/
def emptyDir : DirFS :=
  { directory := "proj"
    readPyproject := none
    parsePyproject := none
    fileMeta := fun _ => none
    gitCommit := none }

/-- A directory whose manifest exists but fails strict TOML parsing, while
`setup.py` exists with timestamp 7. -/
def malformedDir : DirFS :=
  { directory := "proj"
    readPyproject := some "not toml"
    parsePyproject := none
    fileMeta := fun p => if p = "proj/setup.py" then some { isFile := true, ctime := 7 } else none
    gitCommit := none }

/-- A requirement entry on package name `a` with source demand `src-a`. -/
def entryA : UnresolvedRequirementSpecification :=
  { requirement := UnresolvedRequirement.named
      { name := "a", extras := [], marker := "always", source := "src-a" }
    hashes := [] }

/-- An index with no installed packages at all. -/
def emptyIndex : InstalledPackages :=
  { interpreterVersion := 311, distributions := [], by_name := [], by_url := [] }

/-- A marker environment in which every marker expression holds. -/
def envAll : MarkerEnv :=
  { pythonFullVersion := 311, evalMarker := fun _ _ => true }

/-- Semantics in which every source check succeeds as satisfied. -/
def semAllOk : Semantics :=
  { vsContains := fun _ _ => true
    checkSat := fun _ _ => Except.ok RequirementSatisfaction.satisfied }

/-- An installed distribution of package `a`, version 1, with readable and
dependency-free metadata. -/
def distA : InstalledDist :=
  { name := "a", version := 1, path := "sp/a", url := none
    metadata := some { requires_python := none, requires_dist := [] } }

/-- An index holding exactly `distA`. -/
def indexA : InstalledPackages :=
  { interpreterVersion := 311
    distributions := [some distA]
    by_name := [("a", [0])]
    by_url := [] }

/-- A constraint pinning package `a` to a source demand `pin-a2`. -/
def constraintA : NameRequirementSpecification :=
  { requirement := { name := "a", extras := [], marker := "always", source := "pin-a2" } }

/-- Semantics under which every source demand is satisfied except the
constraint pin `pin-a2`, which the installed distribution fails. -/
def semPin : Semantics :=
  { vsContains := fun _ _ => true
    checkSat := fun _ src =>
      if src = "pin-a2" then Except.ok RequirementSatisfaction.outOfDate
      else Except.ok RequirementSatisfaction.satisfied }

/-- An installed distribution of package `m` whose `METADATA` cannot be
read. -/
def distM : InstalledDist :=
  { name := "m", version := 1, path := "sp/m", url := none, metadata := none }

/-- An index holding exactly `distM`. -/
def indexM : InstalledPackages :=
  { interpreterVersion := 311
    distributions := [some distM]
    by_name := [("m", [0])]
    by_url := [] }

/-- A requirement entry on package name `m`. -/
def entryM : UnresolvedRequirementSpecification :=
  { requirement := UnresolvedRequirement.named
      { name := "m", extras := [], marker := "always", source := "src-m" }
    hashes := [] }

/-- A dependency on the missing package `q`, required only under an extra. -/
def gatedDep : Dep :=
  { name := "q", extras := [], marker := "extra-gated", version_or_url := none }

/-- An installed distribution of package `p` declaring only `gatedDep`. -/
def distP : InstalledDist :=
  { name := "p", version := 2, path := "sp/p", url := none
    metadata := some { requires_python := none, requires_dist := [gatedDep] } }

/-- An index holding exactly `distP`. -/
def indexP : InstalledPackages :=
  { interpreterVersion := 311
    distributions := [some distP]
    by_name := [("p", [0])]
    by_url := [] }

/-- A marker environment in which exactly the expression `extra-gated` is
false. -/
def envGated : MarkerEnv :=
  { pythonFullVersion := 311
    evalMarker := fun m _ => !(m == "extra-gated") }

/-- Two installed distributions both named `w`, at distinct paths. -/
def distW1 : InstalledDist :=
  { name := "w", version := 1, path := "sp/w-1", url := none
    metadata := some { requires_python := none, requires_dist := [] } }

/-- See `distW1`. -/
def distW2 : InstalledDist :=
  { name := "w", version := 2, path := "sp/w-2", url := none
    metadata := some { requires_python := none, requires_dist := [] } }

/-- An index in which package `w` is installed twice. -/
def indexW : InstalledPackages :=
  { interpreterVersion := 311
    distributions := [some distW1, some distW2]
    by_name := [("w", [0, 1])]
    by_url := [] }

/-- An installed distribution of package `r` in slot 0 of `indexRS`. -/
def distR : InstalledDist :=
  { name := "r", version := 1, path := "sp/r", url := none
    metadata := some { requires_python := none, requires_dist := [] } }

/-- An installed distribution of package `s` in slot 1 of `indexRS`. -/
def distS : InstalledDist :=
  { name := "s", version := 1, path := "sp/s", url := none
    metadata := some { requires_python := none, requires_dist := [] } }

/-- A well-formed index holding `distR` and `distS`. -/
def indexRS : InstalledPackages :=
  { interpreterVersion := 311
    distributions := [some distR, some distS]
    by_name := [("r", [0]), ("s", [1])]
    by_url := [] }

/-- Unconstrained dependency declarations on `pb`, `pc`, `pd`, forming the
diamond `pa → {pb, pc} → pd`. -/
def depB : Dep := { name := "pb", extras := [], marker := "always", version_or_url := none }

/-- See `depB`. -/
def depC : Dep := { name := "pc", extras := [], marker := "always", version_or_url := none }

/-- See `depB`. -/
def depD : Dep := { name := "pd", extras := [], marker := "always", version_or_url := none }

/-- The top of the diamond: `pa` requires `pb` and `pc`. -/
def distPA : InstalledDist :=
  { name := "pa", version := 1, path := "sp/pa", url := none
    metadata := some { requires_python := none, requires_dist := [depB, depC] } }

/-- `pb` requires `pd`. -/
def distPB : InstalledDist :=
  { name := "pb", version := 1, path := "sp/pb", url := none
    metadata := some { requires_python := none, requires_dist := [depD] } }

/-- `pc` requires `pd`. -/
def distPC : InstalledDist :=
  { name := "pc", version := 1, path := "sp/pc", url := none
    metadata := some { requires_python := none, requires_dist := [depD] } }

/-- The bottom of the diamond. -/
def distPD : InstalledDist :=
  { name := "pd", version := 1, path := "sp/pd", url := none
    metadata := some { requires_python := none, requires_dist := [] } }

/-- An index installing the whole diamond. -/
def indexDiamond : InstalledPackages :=
  { interpreterVersion := 311
    distributions := [some distPA, some distPB, some distPC, some distPD]
    by_name := [("pa", [0]), ("pb", [1]), ("pc", [2]), ("pd", [3])]
    by_url := [] }

/-- The root requirement on `pa`. -/
def rootPA : UnresolvedRequirementSpecification :=
  { requirement := UnresolvedRequirement.named
      { name := "pa", extras := [], marker := "always", source := "src-pa" }
    hashes := [] }

/-! ## Theorems -/

/-- C5: a directory with no readable `pyproject.toml` manifest and none of
the files `pyproject.toml`, `setup.py`, `setup.cfg` makes `from_directory`
return `Ok` of a `CacheInfo` with `is_empty() = true`; and for every
`CacheInfo`, `is_empty()` holds iff both the timestamp and the commit are
absent. -/
theorem from_directory_empty_dir (dir : DirFS)
    (hread : dir.readPyproject = none)
    (hfiles : ∀ f, f ∈ ["pyproject.toml", "setup.py", "setup.cfg"] →
      dir.fileMeta (joinPath dir.directory f) = none) :
    (∃ ci, CacheInfo.from_directory dir = Except.ok ci ∧ ci.is_empty = true) ∧
    (∀ ci : CacheInfo, ci.is_empty = true ↔ ci.timestamp = none ∧ ci.commit = none) := by
  constructor
  · have h1 := hfiles "pyproject.toml" (by simp)
    have h2 := hfiles "setup.py" (by simp)
    have h3 := hfiles "setup.cfg" (by simp)
    refine ⟨_, rfl, ?_⟩
    simp [CacheInfo.from_directory, extractCacheKeys, hread, defaultCacheKeys,
      applyCacheKeys, h1, h2, h3, optMax, CacheInfo.is_empty]
  · intro ci
    simp [CacheInfo.is_empty, Option.isNone_iff_eq_none]

/-- Witness for C5 at the concrete directory `emptyDir`. -/
theorem from_directory_empty_dir_witness :
    (∃ ci, CacheInfo.from_directory emptyDir = Except.ok ci ∧ ci.is_empty = true) ∧
    (∀ ci : CacheInfo, ci.is_empty = true ↔ ci.timestamp = none ∧ ci.commit = none) :=
  from_directory_empty_dir emptyDir rfl (by intro f _; rfl)

/-- C6: deserializing the bare scalar wire shape carrying `t` yields
`from_timestamp t`; and serializing a `CacheInfo` with both fields set and
deserializing the result yields the identical value. -/
theorem cache_info_wire_roundtrip :
    (∀ t : Timestamp,
      CacheInfo.fromWire (CacheInfoWire.timestamp t) = CacheInfo.from_timestamp t) ∧
    (∀ (ci : CacheInfo) (t : Timestamp) (c : CacheCommit),
      ci.timestamp = some t → ci.commit = some c →
      CacheInfo.fromWire ci.toWire = ci) := by
  constructor
  · intro t
    rfl
  · intro ci t c _ _
    cases ci
    rfl

/-- Witness for C6 at timestamp `5` and the snapshot `{3, "abc"}`. -/
theorem cache_info_wire_roundtrip_witness :
    CacheInfo.fromWire (CacheInfoWire.timestamp 5) = CacheInfo.from_timestamp 5 ∧
    CacheInfo.fromWire (CacheInfo.toWire { timestamp := some 3, commit := some "abc" }) =
      { timestamp := some 3, commit := some "abc" } :=
  ⟨cache_info_wire_roundtrip.1 5,
   cache_info_wire_roundtrip.2 { timestamp := some 3, commit := some "abc" } 3 "abc" rfl rfl⟩

/-- C7: whenever the manifest is missing or unreadable, fails strict
parsing (which is also what an unknown cache-key shape causes), or lacks
the `tool.uv.cache-keys` array, `from_directory` does not error: it
proceeds with the default cache-key list. -/
theorem from_directory_fallback (dir : DirFS)
    (h : dir.readPyproject = none ∨ dir.parsePyproject = none ∨
      ∃ pp, dir.parsePyproject = some pp ∧ (pp.tool.bind Tool.uv).bind ToolUv.cache_keys = none) :
    CacheInfo.from_directory dir = Except.ok (applyCacheKeys dir (defaultCacheKeys dir)) := by
  have hext : extractCacheKeys dir = none := by
    rcases h with h | h | ⟨pp, hpp, hchain⟩
    · simp [extractCacheKeys, h]
    · cases hr : dir.readPyproject <;> simp [extractCacheKeys, hr, h]
    · cases hr : dir.readPyproject <;> simp [extractCacheKeys, hr, hpp, hchain]
  simp [CacheInfo.from_directory, hext]

/-- Witness for C7 at the concrete directory `malformedDir` (manifest
present but unparseable). -/
theorem from_directory_fallback_witness :
    CacheInfo.from_directory malformedDir =
      Except.ok (applyCacheKeys malformedDir (defaultCacheKeys malformedDir)) :=
  from_directory_fallback malformedDir (Or.inr (Or.inl rfl))

/-- C2: a popped requirement that resolves (by name for named requirements,
by exact source URL for unnamed ones) to zero or to more than one live
installed candidate makes the worklist loop return `Unsatisfied` with that
requirement's description immediately, whatever the remaining worklist and
seen set hold — so a call reports at most this one failing requirement. -/
theorem satisfies_fail_fast (sem : Semantics) (env : MarkerEnv) (self : InstalledPackages)
    (cmap : List (PackageName × List Requirement)) (fuel : Nat)
    (entry : UnresolvedRequirementSpecification)
    (stack seen : List UnresolvedRequirementSpecification)
    (h : self.resolveEntry entry = [] ∨ 2 ≤ (self.resolveEntry entry).length) :
    satisfiesLoop sem env self cmap (fuel + 1) (entry :: stack) seen =
      some (Except.ok (SatisfiesResult.unsatisfied entry.requirement.describe)) := by
  rcases h with h | h
  · simp only [satisfiesLoop, h]
  · match hr : self.resolveEntry entry with
    | [] => rw [hr] at h; simp at h
    | [d] => rw [hr] at h; simp at h
    | a :: b :: rest => simp only [satisfiesLoop, hr]

/-- Witness for C2: the requirement on `a` against the empty index. -/
theorem satisfies_fail_fast_witness :
    satisfiesLoop semAllOk envAll emptyIndex [] 1 [entryA] [] =
      some (Except.ok (SatisfiesResult.unsatisfied entryA.requirement.describe)) :=
  satisfies_fail_fast semAllOk envAll emptyIndex [] 0 entryA [] [] (Or.inl rfl)

/-- Helper: if no constraint check errors and some constraint in the list
reports `Mismatch` or `OutOfDate`, the constraint-validation loop reports
failure. -/
theorem checkConstraints_false_of_reject (sem : Semantics) (distribution : InstalledDist)
    (cs : List Requirement)
    (hnoerr : ∀ c ∈ cs, ∃ r, sem.checkSat distribution c.source = Except.ok r)
    (hfail : ∃ c ∈ cs,
      sem.checkSat distribution c.source = Except.ok RequirementSatisfaction.mismatch ∨
      sem.checkSat distribution c.source = Except.ok RequirementSatisfaction.outOfDate) :
    checkConstraints sem distribution cs = Except.ok false := by
  induction cs with
  | nil => rcases hfail with ⟨c, hc, _⟩; simp at hc
  | cons c rest ih =>
    rcases hnoerr c (List.mem_cons_self c rest) with ⟨r, hr⟩
    cases r with
    | mismatch => simp only [checkConstraints, hr]
    | outOfDate => simp only [checkConstraints, hr]
    | satisfied =>
      simp only [checkConstraints, hr]
      apply ih
      · intro c' hc'
        exact hnoerr c' (List.mem_cons_of_mem c hc')
      · rcases hfail with ⟨c', hc', hrej⟩
        rcases List.mem_cons.mp hc' with rfl | hc'
        · rcases hrej with hrej | hrej <;> rw [hr] at hrej <;> exact absurd hrej (by simp)
        · exact ⟨c', hc', hrej⟩

/-- C3: a single root requirement whose sole installed candidate satisfies
the requirement's own source demand is still `Unsatisfied` when some
constraint registered under the candidate's name rejects the installed
distribution (and no constraint check errors): every constraint for the
name is enforced. -/
theorem satisfies_constraint_enforced (sem : Semantics) (env : MarkerEnv)
    (self : InstalledPackages) (entry : UnresolvedRequirementSpecification)
    (constraints : List NameRequirementSpecification) (distribution : InstalledDist)
    (fuel : Nat)
    (hmark : entry.requirement.evaluateMarkers env [] = true)
    (hres : self.resolveEntry entry = [distribution])
    (hown : sem.checkSat distribution entry.requirement.source =
      Except.ok RequirementSatisfaction.satisfied)
    (hnoerr : ∀ c ∈ (alistGet (collectConstraints constraints) distribution.name).getD [],
      ∃ r, sem.checkSat distribution c.source = Except.ok r)
    (hfail : ∃ c ∈ (alistGet (collectConstraints constraints) distribution.name).getD [],
      sem.checkSat distribution c.source = Except.ok RequirementSatisfaction.mismatch ∨
      sem.checkSat distribution c.source = Except.ok RequirementSatisfaction.outOfDate) :
    self.satisfies sem env [entry] constraints (fuel + 1) =
      some (Except.ok (SatisfiesResult.unsatisfied entry.requirement.describe)) := by
  have hcc := checkConstraints_false_of_reject sem distribution _ hnoerr hfail
  have hseed : seedRoots env [entry] = ([entry], [entry]) := by
    simp [seedRoots, hmark]
  simp only [InstalledPackages.satisfies, hseed, satisfiesLoop, hres, hown, hcc]

/-- Witness for C3: the root on `a` is satisfied by `distA` itself, but the
pin constraint `pin-a2` rejects it, so the call is `Unsatisfied`. -/
theorem satisfies_constraint_enforced_witness :
    indexA.satisfies semPin envAll [entryA] [constraintA] 1 =
      some (Except.ok (SatisfiesResult.unsatisfied entryA.requirement.describe)) :=
  satisfies_constraint_enforced semPin envAll indexA entryA [constraintA] distA 0
    rfl rfl rfl
    (by
      intro c hc
      simp [collectConstraints, alistPush, alistGet, constraintA, distA] at hc
      subst hc
      exact ⟨RequirementSatisfaction.outOfDate, rfl⟩)
    ⟨constraintA.requirement,
      by simp [collectConstraints, alistPush, alistGet, constraintA, distA],
      Or.inr rfl⟩

/-- Counterexample to C4: on an index whose only distribution `distM` has
unreadable metadata and a root requirement that `distM` itself satisfies,
`satisfies` propagates an error (`Failed to read metadata for: ...`) — it
does not surface the unreadable metadata as an `Unsatisfied` verdict. -/
theorem satisfies_metadata_error_counterexample :
    indexM.satisfies semAllOk envAll [entryM] [] 2 =
      some (Except.error ("Failed to read metadata for: " ++ "m")) := by
  rfl

/-- Unfolding `diagForEntry` when the entry has no live install. -/
theorem diagForEntry_of_nil (self : InstalledPackages) (sem : Semantics) (env : MarkerEnv)
    (p : PackageName) (idxs : List Nat) (hlives : self.livesAt idxs = []) :
    self.diagForEntry sem env (p, idxs) = [] := by
  unfold InstalledPackages.diagForEntry
  rw [show self.livesAt (p, idxs).2 = [] from hlives]

/-- Unfolding `diagForEntry` when the entry has a single live install. -/
theorem diagForEntry_of_single (self : InstalledPackages) (sem : Semantics) (env : MarkerEnv)
    (p : PackageName) (idxs : List Nat) (d : InstalledDist)
    (hlives : self.livesAt idxs = [d]) :
    self.diagForEntry sem env (p, idxs) =
      idxs.flatMap (fun index =>
        match self.distAt index with
        | none => []
        | some distribution => self.auditDistribution sem env p distribution) := by
  unfold InstalledPackages.diagForEntry
  rw [show self.livesAt (p, idxs).2 = [d] from hlives]

/-- Unfolding `diagForEntry` when the entry has several live installs. -/
theorem diagForEntry_of_dup (self : InstalledPackages) (sem : Semantics) (env : MarkerEnv)
    (p : PackageName) (idxs : List Nat) (d1 d2 : InstalledDist) (rest : List InstalledDist)
    (hlives : self.livesAt idxs = d1 :: d2 :: rest) :
    self.diagForEntry sem env (p, idxs) =
      [InstalledPackagesDiagnostic.duplicatePackage p
        (d1.path :: d2.path :: rest.map InstalledDist.path)] := by
  unfold InstalledPackages.diagForEntry
  rw [show self.livesAt (p, idxs).2 = d1 :: d2 :: rest from hlives]

/-- C4 as amended: `diagnostics` surfaces a distribution whose metadata
cannot be read as a `MetadataUnavailable` diagnostic, never as an error;
`satisfies`, by contrast, propagates unreadable metadata as a
`Failed to read metadata` error once the failing distribution has passed
its own source check and every constraint check. -/
theorem metadata_unavailable_surfaced (sem : Semantics) (env : MarkerEnv)
    (self : InstalledPackages) (cmap : List (PackageName × List Requirement)) :
    (∀ (name : PackageName) (idxs : List Nat) (d : InstalledDist),
      (name, idxs) ∈ self.by_name → self.livesAt idxs = [d] → d.metadata = none →
      InstalledPackagesDiagnostic.metadataUnavailable name d.path ∈
        self.diagnostics sem env) ∧
    (∀ (fuel : Nat) (entry : UnresolvedRequirementSpecification)
       (stack seen : List UnresolvedRequirementSpecification)
       (distribution : InstalledDist),
      self.resolveEntry entry = [distribution] →
      sem.checkSat distribution entry.requirement.source =
        Except.ok RequirementSatisfaction.satisfied →
      checkConstraints sem distribution ((alistGet cmap distribution.name).getD []) =
        Except.ok true →
      distribution.metadata = none →
      satisfiesLoop sem env self cmap (fuel + 1) (entry :: stack) seen =
        some (Except.error ("Failed to read metadata for: " ++ distribution.display))) := by
  constructor
  · intro name idxs d hmem hlives hmeta
    have hd : d ∈ self.livesAt idxs := by rw [hlives]; exact List.mem_singleton.mpr rfl
    rcases List.mem_flatMap.mp hd with ⟨i, hi, hdi⟩
    have hdist : self.distAt i = some d := by
      cases h : self.distAt i <;> rw [h] at hdi <;> simp at hdi
      rw [hdi]
    apply List.mem_flatMap.mpr
    refine ⟨(name, idxs), hmem, ?_⟩
    rw [diagForEntry_of_single self sem env name idxs d hlives]
    apply List.mem_flatMap.mpr
    refine ⟨i, hi, ?_⟩
    simp [hdist, InstalledPackages.auditDistribution, hmeta]
  · intro fuel entry stack seen distribution hres hown hcc hmeta
    simp only [satisfiesLoop, hres, hown, hcc, hmeta]

/-- Witness for the amended C4 at the concrete index `indexM`. -/
theorem metadata_unavailable_surfaced_witness :
    InstalledPackagesDiagnostic.metadataUnavailable "m" distM.path ∈
      indexM.diagnostics semAllOk envAll ∧
    satisfiesLoop semAllOk envAll indexM [] 1 [entryM] [entryM] =
      some (Except.error ("Failed to read metadata for: " ++ distM.display)) :=
  ⟨(metadata_unavailable_surfaced semAllOk envAll indexM []).1 "m" [0] distM
      (by simp [indexM]) rfl rfl,
   (metadata_unavailable_surfaced semAllOk envAll indexM []).2 0 entryM [] [entryM] distM
      rfl rfl rfl rfl⟩

/-- Helper: every `MissingDependency` or `IncompatibleDependency` emitted by
`diagnostics` carries a requirement whose marker evaluated true under the
empty set of active extras. -/
theorem diag_dep_marker_true (self : InstalledPackages) (sem : Semantics) (env : MarkerEnv)
    (g : InstalledPackagesDiagnostic) (hg : g ∈ self.diagnostics sem env) :
    (∀ p r, g = InstalledPackagesDiagnostic.missingDependency p r →
      env.evalMarker r.marker [] = true) ∧
    (∀ p v r, g = InstalledPackagesDiagnostic.incompatibleDependency p v r →
      env.evalMarker r.marker [] = true) := by
  rcases List.mem_flatMap.mp hg with ⟨entry, _, hge⟩
  obtain ⟨p, idxs⟩ := entry
  cases hl : self.livesAt idxs with
  | nil => rw [diagForEntry_of_nil self sem env p idxs hl] at hge; simp at hge
  | cons d rest =>
    cases rest with
    | cons d2 rest2 =>
      rw [diagForEntry_of_dup self sem env p idxs d d2 rest2 hl] at hge
      simp at hge
      subst hge
      exact And.intro (fun _ _ h => nomatch h) (fun _ _ _ h => nomatch h)
    | nil =>
      rw [diagForEntry_of_single self sem env p idxs d hl] at hge
      simp only [List.mem_flatMap] at hge
      rcases hge with ⟨i, _, hgi⟩
      cases hdi : self.distAt i with
      | none => simp [hdi] at hgi
      | some distribution =>
        simp only [hdi] at hgi
        simp only [InstalledPackages.auditDistribution] at hgi
        cases hm : distribution.metadata with
        | none =>
          simp [hm] at hgi
          subst hgi
          exact And.intro (fun _ _ h => nomatch h) (fun _ _ _ h => nomatch h)
        | some metadata =>
          simp only [hm, List.mem_append] at hgi
          rcases hgi with hpy | hdep
          · cases hrp : metadata.requires_python with
            | none => simp [hrp] at hpy
            | some requires_python =>
              by_cases hc : sem.vsContains requires_python env.pythonFullVersion = true
              · simp [hrp, hc] at hpy
              · simp [hrp, hc] at hpy
                subst hpy
                exact And.intro (fun _ _ h => nomatch h) (fun _ _ _ h => nomatch h)
          · simp only [List.mem_flatMap] at hdep
            rcases hdep with ⟨dependency, _, hgd⟩
            by_cases hmk : env.evalMarker dependency.marker [] = true
            · simp only [hmk, if_true] at hgd
              cases hgp : self.get_packages dependency.name with
              | nil =>
                simp [hgp] at hgd
                subst hgd
                refine And.intro ?_ (fun _ _ _ h => nomatch h)
                intro p r h
                cases h
                exact hmk
              | cons installed irest =>
                cases irest with
                | cons i2 irest2 => simp [hgp] at hgd
                | nil =>
                  simp only [hgp] at hgd
                  cases hvu : dependency.version_or_url with
                  | none => simp [hvu] at hgd
                  | some vu =>
                    cases vu with
                    | url u => simp [hvu] at hgd
                    | versionSpecifier version_specifier =>
                      by_cases hvc : sem.vsContains version_specifier installed.version = true
                      · simp [hvu, hvc] at hgd
                      · simp [hvu, hvc] at hgd
                        subst hgd
                        refine And.intro (fun _ _ h => nomatch h) ?_
                        intro p v r h
                        cases h
                        exact hmk
            · simp only [Bool.not_eq_true] at hmk
              simp [hmk] at hgd

/-- C10: `diagnostics` evaluates dependency markers with no active extras,
so a dependency whose marker is false without extras is never reported as
missing or incompatible, whatever is installed. -/
theorem diagnostics_skip_extra_gated_deps (self : InstalledPackages) (sem : Semantics)
    (env : MarkerEnv) (dep : Dep)
    (h : env.evalMarker dep.marker [] = false) :
    (∀ p, InstalledPackagesDiagnostic.missingDependency p dep ∉
      self.diagnostics sem env) ∧
    (∀ p v, InstalledPackagesDiagnostic.incompatibleDependency p v dep ∉
      self.diagnostics sem env) := by
  constructor
  · intro p hmem
    have := (diag_dep_marker_true self sem env _ hmem).1 p dep rfl
    rw [h] at this
    cases this
  · intro p v hmem
    have := (diag_dep_marker_true self sem env _ hmem).2 p v dep rfl
    rw [h] at this
    cases this

/-- Witness for C10: the extra-gated dependency on the uninstalled `q` is
not reported against the index holding only `distP`. -/
theorem diagnostics_skip_extra_gated_deps_witness :
    envGated.evalMarker gatedDep.marker [] = false ∧
    (InstalledPackagesDiagnostic.missingDependency "p" gatedDep ∉
      indexP.diagnostics semAllOk envGated) ∧
    (InstalledPackagesDiagnostic.incompatibleDependency "p" 2 gatedDep ∉
      indexP.diagnostics semAllOk envGated) :=
  ⟨rfl,
   (diagnostics_skip_extra_gated_deps indexP semAllOk envGated gatedDep rfl).1 "p",
   (diagnostics_skip_extra_gated_deps indexP semAllOk envGated gatedDep rfl).2 "p" 2⟩

/-- Helper: an association-list lookup with no duplicate keys finds the
member entry. -/
theorem alistGet_eq_of_mem {α β : Type} [DecidableEq α] (m : List (α × β)) (k : α) (v : β)
    (hkeys : (m.map Prod.fst).Nodup) (hmem : (k, v) ∈ m) :
    alistGet m k = some v := by
  induction m with
  | nil => simp at hmem
  | cons e m ih =>
    rcases List.mem_cons.mp hmem with heq | hmem2
    · subst heq
      simp [alistGet]
    · have hk : ¬ (e.1 = k) := by
        intro h
        apply (List.nodup_cons.mp hkeys).1
        rw [h]
        exact List.mem_map.mpr ⟨(k, v), hmem2, rfl⟩
      have ihr := ih (List.nodup_cons.mp hkeys).2 hmem2
      unfold alistGet at ihr ⊢
      rw [List.find?_cons_of_neg]
      · exact ihr
      · simp [hk]

/-- Helper: every diagnostic emitted by the per-distribution audit carries
the audited package's name. -/
theorem auditDistribution_package (self : InstalledPackages) (sem : Semantics)
    (env : MarkerEnv) (p : PackageName) (d : InstalledDist)
    (g : InstalledPackagesDiagnostic) (hg : g ∈ self.auditDistribution sem env p d) :
    g.package = p := by
  unfold InstalledPackages.auditDistribution at hg
  cases hm : d.metadata with
  | none =>
    simp [hm] at hg
    subst hg
    rfl
  | some metadata =>
    simp only [hm, List.mem_append] at hg
    rcases hg with hpy | hdep
    · cases hrp : metadata.requires_python with
      | none => simp [hrp] at hpy
      | some requires_python =>
        by_cases hc : sem.vsContains requires_python env.pythonFullVersion = true
        · simp [hrp, hc] at hpy
        · simp [hrp, hc] at hpy
          subst hpy
          rfl
    · rcases List.mem_flatMap.mp hdep with ⟨dependency, _, hgd⟩
      by_cases hmk : env.evalMarker dependency.marker [] = true
      · simp only [hmk, if_true] at hgd
        cases hgp : self.get_packages dependency.name with
        | nil =>
          simp [hgp] at hgd
          subst hgd
          rfl
        | cons installed irest =>
          cases irest with
          | cons i2 irest2 => simp [hgp] at hgd
          | nil =>
            simp only [hgp] at hgd
            cases hvu : dependency.version_or_url with
            | none => simp [hvu] at hgd
            | some vu =>
              cases vu with
              | url u => simp [hvu] at hgd
              | versionSpecifier version_specifier =>
                by_cases hvc : sem.vsContains version_specifier installed.version = true
                · simp [hvu, hvc] at hgd
                · simp [hvu, hvc] at hgd
                  subst hgd
                  rfl
      · simp only [Bool.not_eq_true] at hmk
        simp [hmk] at hgd

/-- Helper: every diagnostic contributed by one `by_name` entry carries that
entry's package name. -/
theorem diagForEntry_package (self : InstalledPackages) (sem : Semantics) (env : MarkerEnv)
    (e : PackageName × List Nat) (g : InstalledPackagesDiagnostic)
    (hg : g ∈ self.diagForEntry sem env e) : g.package = e.1 := by
  obtain ⟨p, idxs⟩ := e
  cases hl : self.livesAt idxs with
  | nil => rw [diagForEntry_of_nil self sem env p idxs hl] at hg; simp at hg
  | cons d rest =>
    cases rest with
    | cons d2 rest2 =>
      rw [diagForEntry_of_dup self sem env p idxs d d2 rest2 hl] at hg
      simp at hg
      subst hg
      rfl
    | nil =>
      rw [diagForEntry_of_single self sem env p idxs d hl] at hg
      rcases List.mem_flatMap.mp hg with ⟨i, _, hgi⟩
      cases hdi : self.distAt i with
      | none => simp [hdi] at hgi
      | some distribution =>
        simp only [hdi] at hgi
        exact auditDistribution_package self sem env p distribution g hgi

/-- Helper: filtering an accumulation over entries with pairwise-distinct
keys by one member key keeps exactly that member's contribution, provided
every contributed element carries its entry's key. -/
theorem filter_flatMap_unique_key {α β γ : Type} [DecidableEq α]
    (F : α × β → List γ) (key : γ → α) (m : List (α × β)) (k : α) (v : β)
    (hkeys : (m.map Prod.fst).Nodup) (hmem : (k, v) ∈ m)
    (hkey : ∀ e ∈ m, ∀ g ∈ F e, key g = e.1) :
    (m.flatMap F).filter (fun g => decide (key g = k)) = F (k, v) := by
  induction m with
  | nil => simp at hmem
  | cons e m ih =>
    rw [List.flatMap_cons, List.filter_append]
    rcases List.mem_cons.mp hmem with heq | hmem2
    · subst heq
      have h1 : (F (k, v)).filter (fun g => decide (key g = k)) = F (k, v) := by
        apply List.filter_eq_self.mpr
        intro g hgmem
        simp [hkey (k, v) (List.mem_cons_self _ _) g hgmem]
      have h2 : (m.flatMap F).filter (fun g => decide (key g = k)) = [] := by
        apply List.filter_eq_nil_iff.mpr
        intro g hgmem
        rcases List.mem_flatMap.mp hgmem with ⟨e2, he2, hge2⟩
        have : key g = e2.1 := hkey e2 (List.mem_cons_of_mem _ he2) g hge2
        have hne : e2.1 ≠ k := by
          intro hcontra
          apply (List.nodup_cons.mp hkeys).1
          rw [← hcontra]
          exact List.mem_map.mpr ⟨e2, he2, rfl⟩
        simp [this, hne]
      rw [h1, h2, List.append_nil]
    · have hek : e.1 ≠ k := by
        intro hcontra
        apply (List.nodup_cons.mp hkeys).1
        rw [hcontra]
        exact List.mem_map.mpr ⟨(k, v), hmem2, rfl⟩
      have h1 : (F e).filter (fun g => decide (key g = k)) = [] := by
        apply List.filter_eq_nil_iff.mpr
        intro g hgmem
        simp [hkey e (List.mem_cons_self _ _) g hgmem, hek]
      rw [h1, List.nil_append]
      exact ih (List.nodup_cons.mp hkeys).2 hmem2
        (fun e2 he2 => hkey e2 (List.mem_cons_of_mem _ he2))

/-- C8: when a package name has more than one live installed distribution,
`get_packages` returns them all, and `diagnostics` emits for that name
exactly one diagnostic — a `DuplicatePackage` listing every live path. -/
theorem duplicate_package_reporting (self : InstalledPackages) (sem : Semantics)
    (env : MarkerEnv) (name : PackageName) (idxs : List Nat)
    (d1 d2 : InstalledDist) (rest : List InstalledDist)
    (hkeys : (self.by_name.map Prod.fst).Nodup)
    (hmem : (name, idxs) ∈ self.by_name)
    (hlives : self.livesAt idxs = d1 :: d2 :: rest) :
    self.get_packages name = d1 :: d2 :: rest ∧
    (self.diagnostics sem env).filter (fun g => decide (g.package = name)) =
      [InstalledPackagesDiagnostic.duplicatePackage name
        (d1.path :: d2.path :: rest.map InstalledDist.path)] := by
  have halist : alistGet self.by_name name = some idxs :=
    alistGet_eq_of_mem self.by_name name idxs hkeys hmem
  constructor
  · unfold InstalledPackages.get_packages
    rw [halist]
    exact hlives
  · unfold InstalledPackages.diagnostics
    rw [filter_flatMap_unique_key (self.diagForEntry sem env)
      InstalledPackagesDiagnostic.package self.by_name name idxs hkeys hmem
      (fun e _ g hg => diagForEntry_package self sem env e g hg)]
    exact diagForEntry_of_dup self sem env name idxs d1 d2 rest hlives

/-- Witness for C8 at the index `indexW`, where `w` is installed twice. -/
theorem duplicate_package_reporting_witness :
    indexW.get_packages "w" = [distW1, distW2] ∧
    (indexW.diagnostics semAllOk envAll).filter (fun g => decide (g.package = "w")) =
      [InstalledPackagesDiagnostic.duplicatePackage "w" [distW1.path, distW2.path]] :=
  duplicate_package_reporting indexW semAllOk envAll "w" [0, 1] distW1 distW2 []
    (by simp [indexW]) (by simp [indexW]) rfl

/-- Helper: a successful association-list lookup comes from a member
entry. -/
theorem mem_of_alistGet {α β : Type} [DecidableEq α] (m : List (α × β)) (k : α) (v : β)
    (h : alistGet m k = some v) : (k, v) ∈ m := by
  unfold alistGet at h
  cases hf : m.find? (fun e => e.1 = k) with
  | none => rw [hf] at h; simp at h
  | some e =>
    rw [hf] at h
    simp at h
    have hpred := List.find?_some hf
    simp only [decide_eq_true_eq] at hpred
    have hmem := List.mem_of_find?_eq_some hf
    have he : e = (k, v) := by
      cases e
      simp at hpred h ⊢
      exact ⟨hpred, h⟩
    rw [← he]
    exact hmem

/-- Helper: characterization of the slot-clearing fold of
`remove_packages` on a duplicate-free index list — it collects exactly the
live distributions of the given slots in order, clears those slots, and
leaves every other slot and the overall length unchanged. -/
theorem removeFold_spec (idxs : List Nat) :
    ∀ (dists : List (Option InstalledDist)) (acc : List InstalledDist), idxs.Nodup →
    (idxs.foldl
        (fun (acc : List InstalledDist × List (Option InstalledDist)) index =>
          match acc.2.getD index none with
          | some d => (acc.1 ++ [d], acc.2.set index none)
          | none => (acc.1, acc.2))
        (acc, dists)).1 =
      acc ++ idxs.flatMap (fun i => (dists.getD i none).toList) ∧
    (∀ i ∈ idxs,
      (idxs.foldl
        (fun (acc : List InstalledDist × List (Option InstalledDist)) index =>
          match acc.2.getD index none with
          | some d => (acc.1 ++ [d], acc.2.set index none)
          | none => (acc.1, acc.2))
        (acc, dists)).2.getD i none = none) ∧
    (∀ j, j ∉ idxs →
      (idxs.foldl
        (fun (acc : List InstalledDist × List (Option InstalledDist)) index =>
          match acc.2.getD index none with
          | some d => (acc.1 ++ [d], acc.2.set index none)
          | none => (acc.1, acc.2))
        (acc, dists)).2.getD j none = dists.getD j none) := by
  induction idxs with
  | nil => intro dists acc _; simp
  | cons i idxs ih =>
    intro dists acc hnd
    have hnd2 := List.nodup_cons.mp hnd
    cases hdi : dists.getD i none with
    | none =>
      have step : (List.foldl
          (fun (acc : List InstalledDist × List (Option InstalledDist)) index =>
            match acc.2.getD index none with
            | some d => (acc.1 ++ [d], acc.2.set index none)
            | none => (acc.1, acc.2))
          (acc, dists) (i :: idxs)) = (List.foldl
          (fun (acc : List InstalledDist × List (Option InstalledDist)) index =>
            match acc.2.getD index none with
            | some d => (acc.1 ++ [d], acc.2.set index none)
            | none => (acc.1, acc.2))
          (acc, dists) idxs) := by
        rw [List.foldl_cons]
        simp only [hdi]
      rcases ih dists acc hnd2.2 with ⟨h1, h2, h3⟩
      refine ⟨?_, ?_, ?_⟩
      · rw [step, h1, List.flatMap_cons, hdi]
        simp
      · intro j hj
        rcases List.mem_cons.mp hj with rfl | hj2
        · rw [step, h3 j hnd2.1, hdi]
        · rw [step]; exact h2 j hj2
      · intro j hj
        rw [step]
        exact h3 j (fun hc => hj (List.mem_cons_of_mem i hc))
    | some d =>
      have hlen : i < dists.length := by
        by_contra hc
        push_neg at hc
        rw [List.getD_eq_getElem?_getD, List.getElem?_eq_none hc] at hdi
        simp at hdi
      have step : (List.foldl
          (fun (acc : List InstalledDist × List (Option InstalledDist)) index =>
            match acc.2.getD index none with
            | some d => (acc.1 ++ [d], acc.2.set index none)
            | none => (acc.1, acc.2))
          (acc, dists) (i :: idxs)) = (List.foldl
          (fun (acc : List InstalledDist × List (Option InstalledDist)) index =>
            match acc.2.getD index none with
            | some d => (acc.1 ++ [d], acc.2.set index none)
            | none => (acc.1, acc.2))
          (acc ++ [d], dists.set i none) idxs) := by
        rw [List.foldl_cons]
        simp only [hdi]
      have hsetne : ∀ j, j ≠ i → (dists.set i none).getD j none = dists.getD j none := by
        intro j hj
        rw [List.getD_eq_getElem?_getD, List.getD_eq_getElem?_getD,
          List.getElem?_set_ne (fun hc => hj hc.symm)]
      rcases ih (dists.set i none) (acc ++ [d]) hnd2.2 with ⟨h1, h2, h3⟩
      refine ⟨?_, ?_, ?_⟩
      · rw [step, h1, List.flatMap_cons, hdi]
        have : idxs.flatMap (fun j => ((dists.set i none).getD j none).toList) =
            idxs.flatMap (fun j => (dists.getD j none).toList) := by
          apply List.flatMap_congr
          intro j hj
          rw [hsetne j (fun hc => hnd2.1 (hc ▸ hj))]
        rw [this]
        simp
      · intro j hj
        rcases List.mem_cons.mp hj with rfl | hj2
        · rw [step, h3 j hnd2.1, List.getD_eq_getElem?_getD,
            List.getElem?_set_self hlen]
          rfl
        · rw [step]; exact h2 j hj2
      · intro j hj
        rw [step, h3 j (fun hc => hj (List.mem_cons_of_mem i hc)),
          hsetne j (fun hc => hj (hc ▸ List.mem_cons_self i idxs))]

/-- Helper: the removed distributions are the live slots of the name's
index list. -/
theorem remove_packages_fst (self : InstalledPackages) (name : PackageName) (idxs : List Nat)
    (halist : alistGet self.by_name name = some idxs) (hnd : idxs.Nodup) :
    (self.remove_packages name).1 = self.livesAt idxs := by
  obtain ⟨h1, _, _⟩ := removeFold_spec idxs self.distributions [] hnd
  unfold InstalledPackages.remove_packages
  rw [halist]
  exact h1.trans (List.nil_append _)

/-- Helper: `remove_packages` leaves the name index untouched. -/
theorem remove_packages_snd_by_name (self : InstalledPackages) (name : PackageName) :
    (self.remove_packages name).2.by_name = self.by_name := by
  unfold InstalledPackages.remove_packages
  cases h : alistGet self.by_name name <;> rfl

/-- Helper: `remove_packages` clears every slot of the name's index list. -/
theorem remove_packages_distAt_cleared (self : InstalledPackages) (name : PackageName)
    (idxs : List Nat) (halist : alistGet self.by_name name = some idxs)
    (hnd : idxs.Nodup) :
    ∀ i ∈ idxs, (self.remove_packages name).2.distAt i = none := by
  obtain ⟨_, h2, _⟩ := removeFold_spec idxs self.distributions [] hnd
  intro i hi
  unfold InstalledPackages.remove_packages
  rw [halist]
  exact h2 i hi

/-- Helper: `remove_packages` does not touch slots outside the name's index
list. -/
theorem remove_packages_distAt_other (self : InstalledPackages) (name : PackageName)
    (idxs : List Nat) (halist : alistGet self.by_name name = some idxs)
    (hnd : idxs.Nodup) :
    ∀ j, j ∉ idxs → (self.remove_packages name).2.distAt j = self.distAt j := by
  obtain ⟨_, _, h3⟩ := removeFold_spec idxs self.distributions [] hnd
  intro j hj
  unfold InstalledPackages.remove_packages
  rw [halist]
  exact h3 j hj

/-- C9: on a well-formed index, `remove_packages` returns exactly the live
distributions indexed under the name, after which `get_packages` for that
name is empty and `iter` no longer yields the removed distributions, while
every other package's lookups and slots are untouched and the name's entry
stays in the index structure. -/
theorem remove_packages_clears (self : InstalledPackages) (name : PackageName)
    (hwf : IndexWF self) :
    (self.remove_packages name).1 = self.get_packages name ∧
    (self.remove_packages name).2.get_packages name = [] ∧
    (∀ d ∈ (self.remove_packages name).1, d ∉ (self.remove_packages name).2.iterList) ∧
    (∀ n, n ≠ name → (self.remove_packages name).2.get_packages n = self.get_packages n) ∧
    (self.remove_packages name).2.by_name = self.by_name ∧
    (∀ j, j ∉ (alistGet self.by_name name).getD [] →
      (self.remove_packages name).2.distributions.getD j none =
        self.distributions.getD j none) := by
  cases halist : alistGet self.by_name name with
  | none =>
    have hrp : self.remove_packages name = ([], self) := by
      unfold InstalledPackages.remove_packages
      rw [halist]
    have hgp : self.get_packages name = [] := by
      unfold InstalledPackages.get_packages
      rw [halist]
    rw [hrp]
    refine ⟨hgp.symm, hgp, ?_, ?_, rfl, ?_⟩
    · intro d hd
      simp at hd
    · intro n _
      rfl
    · intro j _
      rfl
  | some idxs =>
    obtain ⟨hkeysN, hidxN, hnaming, hcovered⟩ := hwf
    have hmem : (name, idxs) ∈ self.by_name := mem_of_alistGet _ _ _ halist
    have hnd : idxs.Nodup := hidxN (name, idxs) hmem
    have hfst := remove_packages_fst self name idxs halist hnd
    have hby := remove_packages_snd_by_name self name
    have hclr := remove_packages_distAt_cleared self name idxs halist hnd
    have hoth := remove_packages_distAt_other self name idxs halist hnd
    have hgp : self.get_packages name = self.livesAt idxs := by
      unfold InstalledPackages.get_packages
      rw [halist]
      rfl
    refine ⟨hfst.trans hgp.symm, ?_, ?_, ?_, hby, ?_⟩
    · unfold InstalledPackages.get_packages
      have hba : alistGet (self.remove_packages name).2.by_name name = some idxs := by
        rw [hby]
        exact halist
      rw [hba]
      apply List.flatMap_eq_nil_iff.mpr
      intro i hi
      simp [hclr i hi]
    · intro d hd hmem2
      rw [hfst] at hd
      rcases List.mem_flatMap.mp hd with ⟨i, hi, hdi⟩
      have hdist : self.distAt i = some d := by
        cases h : self.distAt i <;> rw [h] at hdi <;> simp at hdi
        rw [hdi]
      have hdname : d.name = name := hnaming (name, idxs) hmem i hi d hdist
      unfold InstalledPackages.iterList at hmem2
      rcases List.mem_flatMap.mp hmem2 with ⟨o, ho, hdo⟩
      have ho2 : o = some d := by
        cases o with
        | none => simp at hdo
        | some a => simp at hdo; rw [hdo]
      subst ho2
      rcases List.getElem?_of_mem ho with ⟨j, hj⟩
      have hslot : (self.remove_packages name).2.distAt j = some d := by
        unfold InstalledPackages.distAt
        rw [List.getD_eq_getElem?_getD, hj]
        rfl
      by_cases hjin : j ∈ idxs
      · rw [hclr j hjin] at hslot
        simp at hslot
      · rw [hoth j hjin] at hslot
        rcases hcovered j d hslot with ⟨e, he, hename, hje⟩
        have hee : alistGet self.by_name e.1 = some e.2 := by
          apply alistGet_eq_of_mem _ _ _ hkeysN
          cases e
          exact he
        rw [hename, hdname, halist] at hee
        have he2 : idxs = e.2 := by injection hee
        rw [← he2] at hje
        exact hjin hje
    · intro n hn
      unfold InstalledPackages.get_packages
      have hbyn : alistGet (self.remove_packages name).2.by_name n =
          alistGet self.by_name n := by rw [hby]
      rw [hbyn]
      cases halist2 : alistGet self.by_name n with
      | none => rfl
      | some idxs2 =>
        apply List.flatMap_congr
        intro j hj
        by_cases hjin : j ∈ idxs
        · have hmem2 : (n, idxs2) ∈ self.by_name := mem_of_alistGet _ _ _ halist2
          cases hdj : self.distAt j with
          | none => simp [hclr j hjin, hdj]
          | some d =>
            have hd1 : d.name = name := hnaming (name, idxs) hmem j hjin d hdj
            have hd2 : d.name = n := hnaming (n, idxs2) hmem2 j hj d hdj
            exact absurd (hd2.symm.trans hd1) hn
        · simp [hoth j hjin]
    · intro j hj
      simp only [Option.getD_some] at hj
      exact hoth j hj

/-- Helper: the concrete index `indexRS` is well formed. -/
theorem indexRS_wf : IndexWF indexRS := by
  constructor
  · decide
  · intro e he
    simp [indexRS] at he
    rcases he with rfl | rfl <;> decide
  · intro e he i hi d hd
    simp [indexRS] at he
    rcases he with rfl | rfl
    · simp at hi
      subst hi
      have hd0 : some distR = some d := hd
      injection hd0 with h
      rw [← h]
      rfl
    · simp at hi
      subst hi
      have hd0 : some distS = some d := hd
      injection hd0 with h
      rw [← h]
      rfl
  · intro i d hd
    rcases i with _ | _ | n
    · have hd0 : some distR = some d := hd
      injection hd0 with h
      exact ⟨("r", [0]), by simp [indexRS], by rw [← h]; rfl, by simp⟩
    · have hd0 : some distS = some d := hd
      injection hd0 with h
      exact ⟨("s", [1]), by simp [indexRS], by rw [← h]; rfl, by simp⟩
    · have hd0 : (none : Option InstalledDist) = some d := hd
      exact Option.noConfusion hd0

/-- Witness for C9: removing `r` from `indexRS`. -/
theorem remove_packages_clears_witness :
    (indexRS.remove_packages "r").1 = indexRS.get_packages "r" ∧
    (indexRS.remove_packages "r").2.get_packages "r" = [] ∧
    (∀ d ∈ (indexRS.remove_packages "r").1,
      d ∉ (indexRS.remove_packages "r").2.iterList) ∧
    (∀ n, n ≠ "r" →
      (indexRS.remove_packages "r").2.get_packages n = indexRS.get_packages n) ∧
    (indexRS.remove_packages "r").2.by_name = indexRS.by_name ∧
    (∀ j, j ∉ (alistGet indexRS.by_name "r").getD [] →
      (indexRS.remove_packages "r").2.distributions.getD j none =
        indexRS.distributions.getD j none) :=
  remove_packages_clears indexRS "r" indexRS_wf

/-- Helper: characterization of the dependency-pushing fold.  It pushes a
duplicate-free block `new` of previously unseen specifications (reversed on
top of the stack, appended to the seen set); every pushed specification
comes from a marker-true declared dependency, and every marker-true
declared dependency's specification ends up seen. -/
theorem pushDeps_spec (env : MarkerEnv) (extras : List String) (deps : List Dep) :
    ∀ (stack seen : List UnresolvedRequirementSpecification),
    ∃ new : List UnresolvedRequirementSpecification,
      (pushDeps env extras deps stack seen).1 = new.reverse ++ stack ∧
      (pushDeps env extras deps stack seen).2 = seen ++ new ∧
      new.Nodup ∧
      (∀ x ∈ new, x ∉ seen) ∧
      (∀ x ∈ new, ∃ dep ∈ deps,
        env.evalMarker dep.marker extras = true ∧ x = mkDepSpec dep) ∧
      (∀ dep ∈ deps, env.evalMarker dep.marker extras = true →
        mkDepSpec dep ∈ seen ++ new) := by
  induction deps with
  | nil =>
    intro stack seen
    exact ⟨[], by simp [pushDeps], by simp [pushDeps], List.nodup_nil,
      by simp, by simp, by simp⟩
  | cons dependency rest ih =>
    intro stack seen
    by_cases hmk : env.evalMarker dependency.marker extras = true
    · by_cases hin : mkDepSpec dependency ∈ seen
      · have hstep : pushDeps env extras (dependency :: rest) stack seen =
            pushDeps env extras rest stack seen := by
          unfold pushDeps
          rw [List.foldl_cons]
          simp [hmk, hin]
        rcases ih stack seen with ⟨new, h1, h2, h3, h4, h5, h6⟩
        refine ⟨new, ?_, ?_, h3, h4, ?_, ?_⟩
        · rw [hstep]; exact h1
        · rw [hstep]; exact h2
        · intro x hx
          rcases h5 x hx with ⟨dep, hdep, hm, he⟩
          exact ⟨dep, List.mem_cons_of_mem _ hdep, hm, he⟩
        · intro dep hdep hm
          rcases List.mem_cons.mp hdep with rfl | hdep2
          · exact List.mem_append.mpr (Or.inl hin)
          · exact h6 dep hdep2 hm
      · have hstep : pushDeps env extras (dependency :: rest) stack seen =
            pushDeps env extras rest (mkDepSpec dependency :: stack)
              (seen ++ [mkDepSpec dependency]) := by
          unfold pushDeps
          rw [List.foldl_cons]
          simp [hmk, hin]
        rcases ih (mkDepSpec dependency :: stack) (seen ++ [mkDepSpec dependency]) with
          ⟨new, h1, h2, h3, h4, h5, h6⟩
        refine ⟨mkDepSpec dependency :: new, ?_, ?_, ?_, ?_, ?_, ?_⟩
        · rw [hstep, h1, List.reverse_cons, List.append_assoc]
          rfl
        · rw [hstep, h2, List.append_assoc]
          rfl
        · refine List.nodup_cons.mpr ⟨?_, h3⟩
          intro hc
          exact h4 _ hc (List.mem_append.mpr (Or.inr (List.mem_singleton.mpr rfl)))
        · intro x hx
          rcases List.mem_cons.mp hx with rfl | hx2
          · exact hin
          · intro hc
            exact h4 x hx2 (List.mem_append.mpr (Or.inl hc))
        · intro x hx
          rcases List.mem_cons.mp hx with rfl | hx2
          · exact ⟨dependency, List.mem_cons_self _ _, hmk, rfl⟩
          · rcases h5 x hx2 with ⟨dep, hdep, hm, he⟩
            exact ⟨dep, List.mem_cons_of_mem _ hdep, hm, he⟩
        · intro dep hdep hm
          rcases List.mem_cons.mp hdep with rfl | hdep2
          · exact List.mem_append.mpr (Or.inr (List.mem_cons_self _ _))
          · have h7 := h6 dep hdep2 hm
            rw [List.append_assoc] at h7
            exact h7
    · have hstep : pushDeps env extras (dependency :: rest) stack seen =
          pushDeps env extras rest stack seen := by
        unfold pushDeps
        rw [List.foldl_cons]
        simp [hmk]
      rcases ih stack seen with ⟨new, h1, h2, h3, h4, h5, h6⟩
      refine ⟨new, ?_, ?_, h3, h4, ?_, ?_⟩
      · rw [hstep]; exact h1
      · rw [hstep]; exact h2
      · intro x hx
        rcases h5 x hx with ⟨dep, hdep, hm, he⟩
        exact ⟨dep, List.mem_cons_of_mem _ hdep, hm, he⟩
      · intro dep hdep hm
        rcases List.mem_cons.mp hdep with rfl | hdep2
        · rw [hm] at hmk; exact absurd rfl hmk
        · exact h6 dep hdep2 hm

/-- Helper: characterization of the root-seeding fold: the stack is the
reverse of the seen set, the seen set stays duplicate-free, and it collects
exactly the prior seen elements plus the marker-true roots. -/
theorem seedFold_spec (env : MarkerEnv) (requirements : List UnresolvedRequirementSpecification) :
    ∀ (stack seen : List UnresolvedRequirementSpecification),
      stack = seen.reverse → seen.Nodup →
      (requirements.foldl
          (fun acc entry =>
            if entry.requirement.evaluateMarkers env [] then
              if entry ∈ acc.2 then acc else (entry :: acc.1, acc.2 ++ [entry])
            else acc)
          (stack, seen)).1 =
        (requirements.foldl
          (fun acc entry =>
            if entry.requirement.evaluateMarkers env [] then
              if entry ∈ acc.2 then acc else (entry :: acc.1, acc.2 ++ [entry])
            else acc)
          (stack, seen)).2.reverse ∧
      (requirements.foldl
          (fun acc entry =>
            if entry.requirement.evaluateMarkers env [] then
              if entry ∈ acc.2 then acc else (entry :: acc.1, acc.2 ++ [entry])
            else acc)
          (stack, seen)).2.Nodup ∧
      (∀ x, x ∈ (requirements.foldl
          (fun acc entry =>
            if entry.requirement.evaluateMarkers env [] then
              if entry ∈ acc.2 then acc else (entry :: acc.1, acc.2 ++ [entry])
            else acc)
          (stack, seen)).2 ↔
        x ∈ seen ∨ (x ∈ requirements ∧ x.requirement.evaluateMarkers env [] = true)) := by
  induction requirements with
  | nil =>
    intro stack seen hrev hnd
    refine ⟨hrev, hnd, ?_⟩
    intro x
    simp
  | cons entry rest ih =>
    intro stack seen hrev hnd
    by_cases hm : entry.requirement.evaluateMarkers env [] = true
    · by_cases hin : entry ∈ seen
      · rw [List.foldl_cons]
        simp only [hm, if_true, hin, if_pos]
        obtain ⟨h1, h2, h3⟩ := ih stack seen hrev hnd
        refine ⟨h1, h2, ?_⟩
        intro x
        rw [h3 x]
        constructor
        · rintro (hx | ⟨hx1, hx2⟩)
          · exact Or.inl hx
          · exact Or.inr ⟨List.mem_cons_of_mem _ hx1, hx2⟩
        · rintro (hx | ⟨hx1, hx2⟩)
          · exact Or.inl hx
          · rcases List.mem_cons.mp hx1 with rfl | hx3
            · exact Or.inl hin
            · exact Or.inr ⟨hx3, hx2⟩
      · rw [List.foldl_cons]
        simp only [hm, if_true, hin, if_neg, if_false]
        have hrev2 : entry :: stack = (seen ++ [entry]).reverse := by
          rw [List.reverse_append, hrev]
          rfl
        have hnd2 : (seen ++ [entry]).Nodup := by
          rw [List.nodup_append_comm]
          exact List.nodup_cons.mpr ⟨hin, hnd⟩
        obtain ⟨h1, h2, h3⟩ := ih (entry :: stack) (seen ++ [entry]) hrev2 hnd2
        refine ⟨h1, h2, ?_⟩
        intro x
        rw [h3 x]
        constructor
        · rintro (hx | ⟨hx1, hx2⟩)
          · rcases List.mem_append.mp hx with hx3 | hx3
            · exact Or.inl hx3
            · rcases List.mem_singleton.mp hx3 with rfl
              exact Or.inr ⟨List.mem_cons_self _ _, hm⟩
          · exact Or.inr ⟨List.mem_cons_of_mem _ hx1, hx2⟩
        · rintro (hx | ⟨hx1, hx2⟩)
          · exact Or.inl (List.mem_append.mpr (Or.inl hx))
          · rcases List.mem_cons.mp hx1 with rfl | hx3
            · exact Or.inl (List.mem_append.mpr (Or.inr (List.mem_singleton.mpr rfl)))
            · exact Or.inr ⟨hx3, hx2⟩
    · rw [List.foldl_cons]
      simp only [Bool.not_eq_true] at hm
      simp only [hm, Bool.false_eq_true, if_false]
      obtain ⟨h1, h2, h3⟩ := ih stack seen hrev hnd
      refine ⟨h1, h2, ?_⟩
      intro x
      rw [h3 x]
      constructor
      · rintro (hx | ⟨hx1, hx2⟩)
        · exact Or.inl hx
        · exact Or.inr ⟨List.mem_cons_of_mem _ hx1, hx2⟩
      · rintro (hx | ⟨hx1, hx2⟩)
        · exact Or.inl hx
        · rcases List.mem_cons.mp hx1 with rfl | hx3
          · rw [hx2] at hm
            exact absurd hm (by simp)
          · exact Or.inr ⟨hx3, hx2⟩

/-- Helper: the seeded stack is the reverse of the seeded seen set, which
is duplicate-free and holds exactly the marker-true roots. -/
theorem seedRoots_spec (env : MarkerEnv)
    (requirements : List UnresolvedRequirementSpecification) :
    (seedRoots env requirements).1 = (seedRoots env requirements).2.reverse ∧
    (seedRoots env requirements).2.Nodup ∧
    (∀ x, x ∈ (seedRoots env requirements).2 ↔
      x ∈ requirements ∧ x.requirement.evaluateMarkers env [] = true) := by
  obtain ⟨h1, h2, h3⟩ := seedFold_spec env requirements [] [] rfl List.nodup_nil
  exact ⟨h1, h2, fun x => (h3 x).trans (by simp)⟩

/-- Helper: combined invariants of the worklist loop.  On any terminating
execution: the popped trace stays duplicate-free, the instrumented loop
projects to the plain loop, and on a `Fresh` outcome the returned seen set
is duplicate-free, extends the incoming seen set, is one-step closed when
every incoming seen element is on the stack or already closed, and consists
of discovered requirements when every incoming seen element is
discovered. -/
theorem satisfiesLoopT_invariants (sem : Semantics) (env : MarkerEnv)
    (self : InstalledPackages) (cmap : List (PackageName × List Requirement))
    (requirements : List UnresolvedRequirementSpecification) :
    ∀ (fuel : Nat) (stack seen trace : List UnresolvedRequirementSpecification)
      (res : Except String SatisfiesResult)
      (tr : List UnresolvedRequirementSpecification),
      satisfiesLoopT sem env self cmap fuel stack seen trace = some (res, tr) →
      trace.Nodup → stack.Nodup → seen.Nodup →
      (∀ x ∈ trace, x ∈ seen) → (∀ x ∈ stack, x ∈ seen) →
      (∀ x ∈ trace, x ∉ stack) →
      tr.Nodup ∧
      satisfiesLoop sem env self cmap fuel stack seen = some res ∧
      (∀ S, res = Except.ok (SatisfiesResult.fresh S) →
        S.Nodup ∧
        (∀ x ∈ seen, x ∈ S) ∧
        ((∀ x ∈ seen, x ∈ stack ∨ OneStepClosed sem env self cmap S x) →
          ∀ x ∈ S, OneStepClosed sem env self cmap S x) ∧
        ((∀ x ∈ seen, Discovered sem env self cmap requirements x) →
          ∀ x ∈ S, Discovered sem env self cmap requirements x)) := by
  intro fuel
  induction fuel with
  | zero =>
    intro stack seen trace res tr h
    simp [satisfiesLoopT] at h
  | succ fuel ih =>
    intro stack seen trace res tr h htrnd hstnd hsnnd htrsn hstsn hdisj
    cases stack with
    | nil =>
      simp only [satisfiesLoopT] at h
      injection h with h2
      rw [Prod.mk.injEq] at h2
      obtain ⟨hres2, htr2⟩ := h2
      subst hres2
      subst htr2
      refine ⟨htrnd, by simp only [satisfiesLoop], ?_⟩
      intro S hS
      have hSe : seen = S := by
        injection hS with h3
        injection h3 with h4
      subst hSe
      refine ⟨hsnnd, fun x hx => hx, ?_, fun hdisc x hx => hdisc x hx⟩
      intro hcl x hx
      rcases hcl x hx with hx2 | hx2
      · simp at hx2
      · exact hx2
    | cons entry rest =>
      have hentnotr : entry ∉ trace :=
        fun hc => hdisj entry hc (List.mem_cons_self _ _)
      have htrnd2 : (trace ++ [entry]).Nodup := by
        rw [List.nodup_append_comm]
        exact List.nodup_cons.mpr ⟨hentnotr, htrnd⟩
      cases hres : self.resolveEntry entry with
      | nil =>
        simp only [satisfiesLoopT, hres] at h
        injection h with h2
        rw [Prod.mk.injEq] at h2
        obtain ⟨hres2, htr2⟩ := h2
        subst hres2
        subst htr2
        exact ⟨htrnd2, by simp only [satisfiesLoop, hres], fun S hS => absurd hS (by simp)⟩
      | cons distribution dtail =>
        cases dtail with
        | cons d2 dtail2 =>
          simp only [satisfiesLoopT, hres] at h
          injection h with h2
          rw [Prod.mk.injEq] at h2
          obtain ⟨hres2, htr2⟩ := h2
          subst hres2
          subst htr2
          exact ⟨htrnd2, by simp only [satisfiesLoop, hres], fun S hS => absurd hS (by simp)⟩
        | nil =>
          cases hchk : sem.checkSat distribution entry.requirement.source with
          | error e =>
            simp only [satisfiesLoopT, hres, hchk] at h
            injection h with h2
            rw [Prod.mk.injEq] at h2
            obtain ⟨hres2, htr2⟩ := h2
            subst hres2
            subst htr2
            exact ⟨htrnd2, by simp only [satisfiesLoop, hres, hchk],
              fun S hS => absurd hS (by simp)⟩
          | ok rs =>
            cases rs with
            | mismatch =>
              simp only [satisfiesLoopT, hres, hchk] at h
              injection h with h2
              rw [Prod.mk.injEq] at h2
              obtain ⟨hres2, htr2⟩ := h2
              subst hres2
              subst htr2
              exact ⟨htrnd2, by simp only [satisfiesLoop, hres, hchk],
                fun S hS => absurd hS (by simp)⟩
            | outOfDate =>
              simp only [satisfiesLoopT, hres, hchk] at h
              injection h with h2
              rw [Prod.mk.injEq] at h2
              obtain ⟨hres2, htr2⟩ := h2
              subst hres2
              subst htr2
              exact ⟨htrnd2, by simp only [satisfiesLoop, hres, hchk],
                fun S hS => absurd hS (by simp)⟩
            | satisfied =>
              cases hcc : checkConstraints sem distribution
                  ((alistGet cmap distribution.name).getD []) with
              | error e =>
                simp only [satisfiesLoopT, hres, hchk, hcc] at h
                injection h with h2
                rw [Prod.mk.injEq] at h2
                obtain ⟨hres2, htr2⟩ := h2
                subst hres2
                subst htr2
                exact ⟨htrnd2, by simp only [satisfiesLoop, hres, hchk, hcc],
                  fun S hS => absurd hS (by simp)⟩
              | ok b =>
                cases b with
                | false =>
                  simp only [satisfiesLoopT, hres, hchk, hcc] at h
                  injection h with h2
                  rw [Prod.mk.injEq] at h2
                  obtain ⟨hres2, htr2⟩ := h2
                  subst hres2
                  subst htr2
                  exact ⟨htrnd2, by simp only [satisfiesLoop, hres, hchk, hcc],
                    fun S hS => absurd hS (by simp)⟩
                | true =>
                  cases hmeta : distribution.metadata with
                  | none =>
                    simp only [satisfiesLoopT, hres, hchk, hcc, hmeta] at h
                    injection h with h2
                    rw [Prod.mk.injEq] at h2
                    obtain ⟨hres2, htr2⟩ := h2
                    subst hres2
                    subst htr2
                    exact ⟨htrnd2, by simp only [satisfiesLoop, hres, hchk, hcc, hmeta],
                      fun S hS => absurd hS (by simp)⟩
                  | some metadata =>
                    simp only [satisfiesLoopT, hres, hchk, hcc, hmeta] at h
                    obtain ⟨new, hp1, hp2, hpnd, hpnotin, hpfrom, hpall⟩ :=
                      pushDeps_spec env entry.requirement.extras metadata.requires_dist
                        rest seen
                    rw [hp1, hp2] at h
                    have hent : entry ∈ seen := hstsn entry (List.mem_cons_self _ _)
                    have hstnd2 : (new.reverse ++ rest).Nodup := by
                      rw [List.nodup_append]
                      refine ⟨List.nodup_reverse.mpr hpnd, (List.nodup_cons.mp hstnd).2, ?_⟩
                      intro a ha hb
                      exact hpnotin a (List.mem_reverse.mp ha)
                        (hstsn a (List.mem_cons_of_mem _ hb))
                    have hsnnd2 : (seen ++ new).Nodup := by
                      rw [List.nodup_append]
                      exact ⟨hsnnd, hpnd, fun a ha hb => hpnotin a hb ha⟩
                    have htrsn2 : ∀ x ∈ trace ++ [entry], x ∈ seen ++ new := by
                      intro x hx
                      rcases List.mem_append.mp hx with hx2 | hx2
                      · exact List.mem_append.mpr (Or.inl (htrsn x hx2))
                      · rcases List.mem_singleton.mp hx2 with rfl
                        exact List.mem_append.mpr (Or.inl hent)
                    have hstsn2 : ∀ x ∈ new.reverse ++ rest, x ∈ seen ++ new := by
                      intro x hx
                      rcases List.mem_append.mp hx with hx2 | hx2
                      · exact List.mem_append.mpr (Or.inr (List.mem_reverse.mp hx2))
                      · exact List.mem_append.mpr
                          (Or.inl (hstsn x (List.mem_cons_of_mem _ hx2)))
                    have hdisj2 : ∀ x ∈ trace ++ [entry], x ∉ new.reverse ++ rest := by
                      intro x hx hc
                      rcases List.mem_append.mp hc with hc2 | hc2
                      · have hxs : x ∈ seen := by
                          rcases List.mem_append.mp hx with hx2 | hx2
                          · exact htrsn x hx2
                          · rcases List.mem_singleton.mp hx2 with rfl
                            exact hent
                        exact hpnotin x (List.mem_reverse.mp hc2) hxs
                      · rcases List.mem_append.mp hx with hx2 | hx2
                        · exact hdisj x hx2 (List.mem_cons_of_mem _ hc2)
                        · rcases List.mem_singleton.mp hx2 with rfl
                          exact (List.nodup_cons.mp hstnd).1 hc2
                    obtain ⟨c1, c2, c3⟩ :=
                      ih _ _ _ res tr h htrnd2 hstnd2 hsnnd2 htrsn2 hstsn2 hdisj2
                    refine ⟨c1, ?_, ?_⟩
                    · simp only [satisfiesLoop, hres, hchk, hcc, hmeta]
                      rw [hp1, hp2]
                      exact c2
                    · intro S hS
                      obtain ⟨d1, d2, d3, d4⟩ := c3 S hS
                      refine ⟨d1, ?_, ?_, ?_⟩
                      · intro x hx
                        exact d2 x (List.mem_append.mpr (Or.inl hx))
                      · intro hcl
                        apply d3
                        intro y hy
                        rcases List.mem_append.mp hy with hy2 | hy2
                        · rcases hcl y hy2 with hy3 | hy3
                          · rcases List.mem_cons.mp hy3 with rfl | hy4
                            · right
                              intro distribution' metadata' hres' hchk' hcc' hmeta'
                                dependency hdep hmk
                              rw [hres] at hres'
                              injection hres' with hd1 _
                              subst hd1
                              rw [hmeta] at hmeta'
                              injection hmeta' with hm1
                              subst hm1
                              exact d2 _ (hpall dependency hdep hmk)
                            · exact Or.inl (List.mem_append.mpr (Or.inr hy4))
                          · exact Or.inr hy3
                        · exact Or.inl
                            (List.mem_append.mpr (Or.inl (List.mem_reverse.mpr hy2)))
                      · intro hdisc
                        apply d4
                        intro y hy
                        rcases List.mem_append.mp hy with hy2 | hy2
                        · exact hdisc y hy2
                        · rcases hpfrom y hy2 with ⟨dep, hdep, hmk, rfl⟩
                          exact Discovered.step entry distribution metadata dep
                            (hdisc entry hent) hres hchk hcc hmeta hdep hmk

/-- C1: on any terminating run of `satisfies` (any worklist shape,
including diamonds), the trace of checked entries has no duplicates — each
distinct requirement specification is checked at most once — and a `Fresh`
outcome carries a duplicate-free `recursive_requirements` set holding
exactly the discovered requirements: the marker-true roots plus every
transitively discovered marker-true dependency specification. -/
theorem satisfies_checks_once_and_fresh_exact (sem : Semantics) (env : MarkerEnv)
    (self : InstalledPackages)
    (requirements : List UnresolvedRequirementSpecification)
    (constraints : List NameRequirementSpecification) (fuel : Nat)
    (res : Except String SatisfiesResult)
    (tr : List UnresolvedRequirementSpecification)
    (h : self.satisfiesT sem env requirements constraints fuel = some (res, tr)) :
    tr.Nodup ∧
    self.satisfies sem env requirements constraints fuel = some res ∧
    (∀ S, res = Except.ok (SatisfiesResult.fresh S) →
      S.Nodup ∧
      (∀ x, x ∈ S ↔
        Discovered sem env self (collectConstraints constraints) requirements x)) := by
  obtain ⟨hrev, hnd, hchar⟩ := seedRoots_spec env requirements
  have h2 : satisfiesLoopT sem env self (collectConstraints constraints) fuel
      (seedRoots env requirements).1 (seedRoots env requirements).2 [] =
        some (res, tr) := h
  have hstnd : (seedRoots env requirements).1.Nodup := by
    rw [hrev]
    exact List.nodup_reverse.mpr hnd
  have hstsn : ∀ x ∈ (seedRoots env requirements).1,
      x ∈ (seedRoots env requirements).2 := by
    intro x hx
    rw [hrev] at hx
    exact List.mem_reverse.mp hx
  obtain ⟨c1, c2, c3⟩ := satisfiesLoopT_invariants sem env self
    (collectConstraints constraints) requirements fuel
    (seedRoots env requirements).1 (seedRoots env requirements).2 [] res tr h2
    List.nodup_nil hstnd hnd (by simp) hstsn (by simp)
  refine ⟨c1, c2, ?_⟩
  intro S hS
  obtain ⟨d1, d2, d3, d4⟩ := c3 S hS
  refine ⟨d1, ?_⟩
  have hcl : ∀ z ∈ S, OneStepClosed sem env self (collectConstraints constraints) S z := by
    apply d3
    intro y hy
    left
    rw [hrev]
    exact List.mem_reverse.mpr hy
  intro x
  constructor
  · intro hx
    apply d4 ?_ x hx
    intro y hy
    obtain ⟨hy1, hy2⟩ := (hchar y).mp hy
    exact Discovered.root y hy1 hy2
  · intro hx
    induction hx with
    | root entryr hmem hmark =>
      exact d2 _ ((hchar _).mpr ⟨hmem, hmark⟩)
    | step entrys distribution metadata dependency hprev hresS hown hcon hmeta hdep hmark ihD =>
      exact hcl entrys ihD distribution metadata hresS hown hcon hmeta dependency hdep hmark

/-- Witness for C1: the diamond `pa → {pb, pc} → pd`, fully installed and
compatible.  The trace visits `pd` exactly once, and the `Fresh` seen set
is exactly `{pa, pb, pc, pd}`. -/
theorem satisfies_checks_once_and_fresh_exact_witness :
    ([rootPA, mkDepSpec depC, mkDepSpec depD, mkDepSpec depB] :
        List UnresolvedRequirementSpecification).Nodup ∧
    indexDiamond.satisfies semAllOk envAll [rootPA] [] 6 =
      some (Except.ok (SatisfiesResult.fresh
        [rootPA, mkDepSpec depB, mkDepSpec depC, mkDepSpec depD])) ∧
    (∀ S, Except.ok (SatisfiesResult.fresh
        [rootPA, mkDepSpec depB, mkDepSpec depC, mkDepSpec depD]) =
          (Except.ok (SatisfiesResult.fresh S) : Except String SatisfiesResult) →
      S.Nodup ∧
      (∀ x, x ∈ S ↔
        Discovered semAllOk envAll indexDiamond (collectConstraints []) [rootPA] x)) :=
  satisfies_checks_once_and_fresh_exact semAllOk envAll indexDiamond [rootPA] [] 6
    (Except.ok (SatisfiesResult.fresh
      [rootPA, mkDepSpec depB, mkDepSpec depC, mkDepSpec depD]))
    [rootPA, mkDepSpec depC, mkDepSpec depD, mkDepSpec depB]
    (by rfl)

end UvSpec
